import Mathlib

/-!
Verification development for the variable-selection utilities in
`src/utils/functions.py` (forward selection, backward elimination by AIC,
bidirectional stepwise selection, backward elimination by p-value).

The Python module drives every decision through an external OLS fitting
capability (`smf.ols(formula, data).fit()`), which is modelled here as an
oracle `OLS` mapping a formula string and a data table to either a fitted
model (a per-term p-value table plus an AIC score, both rational) or an
error string.  Formula strings are built exactly as the source builds them
(f-string joins), so the distinction between a well-formed formula such as
"y ~ x1", the intercept-only formula "y ~ 1", and the degenerate "y ~ "
produced by joining an empty variable list is preserved.

Python exceptions (KeyError on a missing p-value label, ValueError from
`list.remove` on an absent element or from `idxmax` on an empty series,
IndexError from indexing an empty list, and propagated fitting errors) are
modelled with the `Err` type; every embedded function returns an
`Except Err` result paired with the final state of the caller-shared data
table, so that statements about non-mutation of the input data are
expressible.  The fitting oracle is allowed by its type to return an
updated table; the source treats fitting as side-effect-free, which is the
`SideEffectFree` predicate below.

Python `while` loops are embedded with explicit fuel; the chosen fuel is
provably sufficient where a claim depends on it.  CPython `set` iteration
order is unspecified; wherever the source iterates over a set (forward
selection and the initialisation of stepwise selection), the embedding
determinises to first-occurrence column order, which is one legal
realisation of the unspecified order.
-/

open List

/-- Decidable equality for fit results. -/
instance instDecEqExcept {e a : Type} [DecidableEq e] [DecidableEq a] :
    DecidableEq (Except e a) := fun x y =>
  match x, y with
  | .error u, .error v =>
    if h : u = v then .isTrue (by rw [h]) else .isFalse (fun hc => h (Except.error.inj hc))
  | .ok u, .ok v =>
    if h : u = v then .isTrue (by rw [h]) else .isFalse (fun hc => h (Except.ok.inj hc))
  | .error _, .ok _ => .isFalse (fun hc => Except.noConfusion hc)
  | .ok _, .error _ => .isFalse (fun hc => Except.noConfusion hc)

/-- A data table: named columns plus the column contents.  Only the column
names drive control flow in the source; the values are carried so that
preservation of the table across a call is a meaningful statement. -/
structure DataFrame where
  columns : List String
  values : List (String × List ℚ)
deriving DecidableEq

/-- Result of one OLS fit: the per-term p-value series (association list,
as pandas preserves term order) and the AIC score. -/
structure FittedModel where
  pvalues : List (String × ℚ)
  aic : ℚ
deriving DecidableEq

/-- Python-level failures surfaced by the embedded functions. -/
inductive Err where
  /-- an exception propagated from `smf.ols(...).fit()` -/
  | fitError (msg : String)
  /-- KeyError: missing label in a pandas series lookup -/
  | keyError
  /-- ValueError from `list.remove` / `set.remove` on an absent element -/
  | removeMissing
  /-- IndexError from indexing an empty list -/
  | indexError
  /-- ValueError from `idxmax` on an empty series -/
  | emptyIdxmax
  /-- fuel exhaustion: the embedding device for a nonterminating `while` -/
  | fuelExhausted
deriving DecidableEq

/-- The external model-fitting capability: from a formula string and a data
table to a fitted model, or an error.  The returned table is the state of
the data after the fit; a well-behaved (side-effect-free) oracle returns it
unchanged. -/
structure OLS where
  fit : String → DataFrame → Except String (FittedModel × DataFrame)

/-- The fitting capability never modifies the data table it is given. -/
def SideEffectFree (O : OLS) : Prop :=
  ∀ f d m d', O.fit f d = .ok (m, d') → d' = d

/-- Embeds the f-string `f"{response} ~ {' + '.join(vars)}"`.  Note that an
empty variable list yields `response ++ " ~ "`, not the intercept-only
formula. -/
def mkFormula (resp : String) (vars : List String) : String :=
  resp ++ " ~ " ++ String.intercalate " + " vars

/-- Embeds the intercept-only formula `f"{response} ~ 1"`. -/
def interceptFormula (resp : String) : String := resp ++ " ~ 1"

/-- Stable sort by a rational key; Python `list.sort(key=...)` is stable,
and any two stable sorts by the same key agree, so insertion sort is an
exact model of it. -/
def sortByKey {α : Type} (key : α → ℚ) (l : List α) : List α :=
  List.insertionSort (fun x y => key x ≤ key y) l

/-- First occurrence of the maximal value, as `pandas.Series.idxmax`
returns the first index attaining the maximum; `none` on an empty series
(where pandas raises ValueError). -/
def firstArgmax (l : List (String × ℚ)) : Option (String × ℚ) :=
  match l with
  | [] => none
  | x :: xs => some (xs.foldl (fun b y => if y.2 > b.2 then y else b) x)

/-- Deduplication keeping first occurrences: the determinisation used for
CPython `set(...)` iteration. -/
def dedupFirstAux : List String → List String → List String
  | _, [] => []
  | seen, a :: l =>
    if a ∈ seen then dedupFirstAux seen l else a :: dedupFirstAux (a :: seen) l

/-- Column order with duplicates removed (first occurrence kept). -/
def dedupFirst (l : List String) : List String := dedupFirstAux [] l

/-- Result type shared by `forward_selection`, `backward_selection_aic`:
the final fitted model, the selected variable list and an event trace,
paired with the final state of the data table. -/
abbrev FRes := (Except Err (FittedModel × List String × List (String × ℚ))) × DataFrame

/-- Events of `backward_selection_pvalue`: the removed variable, its
p-value, and the model in which that p-value was the maximum. -/
abbrev PRes :=
  (Except Err (FittedModel × List String × List (String × ℚ × FittedModel))) × DataFrame

/-- Precomputed equality instance keeping later instance searches shallow. -/
instance : DecidableEq (FittedModel × List String × List (String × ℚ × FittedModel)) :=
  inferInstance

/-! ## forward_selection (source lines 5-61) -/

/-- The candidate scan of the forward-selection round (source lines 30-42):
for each remaining candidate, fit `response ~ selected + candidate` and
read the candidate's own p-value from the fit (a missing label would raise
KeyError). -/
def collectPvals (O : OLS) (resp : String) (selected : List String) :
    DataFrame → List String → (Except Err (List (String × ℚ))) × DataFrame
  | df, [] => (.ok [], df)
  | df, c :: cs =>
    match O.fit (mkFormula resp (selected ++ [c])) df with
    | .error e => (.error (.fitError e), df)
    | .ok (m, df1) =>
      match m.pvalues.lookup c with
      | none => (.error .keyError, df1)
      | some p =>
        match collectPvals O resp selected df1 cs with
        | (.error e, df2) => (.error e, df2)
        | (.ok rest, df2) => (.ok ((c, p) :: rest), df2)

/-- The final refit of forward selection (source lines 57-59): the chosen
variables, or the intercept-only formula when none were chosen. -/
def forwardFinish (O : OLS) (resp : String) (df : DataFrame)
    (selected : List String) : FRes :=
  match O.fit (if selected.isEmpty then interceptFormula resp
               else mkFormula resp selected) df with
  | .error e => (.error (.fitError e), df)
  | .ok (m, df1) => (.ok (m, selected, []), df1)

/-- The `while changed and len(remaining_vars) > 0` loop of forward
selection (source lines 26-54), with the trailing final refit.  The sort
plus `pvals[0]` of the source is `sortByKey` plus `head?`. -/
def forwardLoop (O : OLS) (resp : String) (sl : ℚ) :
    Nat → DataFrame → List String → List String → FRes
  | 0, df, _, _ => (.error .fuelExhausted, df)
  | fuel + 1, df, selected, remaining =>
    match remaining with
    | [] => forwardFinish O resp df selected
    | _ :: _ =>
      match collectPvals O resp selected df remaining with
      | (.error e, df1) => (.error e, df1)
      | (.ok pvals, df1) =>
        match (sortByKey (fun x => x.2) pvals).head? with
        | none => (.error .indexError, df1)
        | some (c, p) =>
          if p < sl then
            match forwardLoop O resp sl fuel df1 (selected ++ [c]) (remaining.erase c) with
            | (.error e, df2) => (.error e, df2)
            | (.ok (m, s, tr), df2) => (.ok (m, s, (c, p) :: tr), df2)
          else forwardFinish O resp df1 selected

/-- `forward_selection(data, response, significance_level)`, source lines
5-61.  `set(data.columns).remove(response)` raises KeyError when the
response is not a column.  The trace records each included variable with
the p-value it was included at. -/
def forward_selection (O : OLS) (df : DataFrame) (resp : String) (sl : ℚ) : FRes :=
  if resp ∈ df.columns then
    let remaining := (dedupFirst df.columns).erase resp
    forwardLoop O resp sl (remaining.length + 1) df [] remaining
  else (.error .keyError, df)

/-! ## backward_selection_aic (source lines 65-121) -/

/-- The one-variable-removed scan of backward elimination by AIC (source
lines 100-105): for each variable, fit the model without it (a list
comprehension dropping every occurrence) and record `(var, aic, model)`.
When `remaining` is a singleton the fitted formula is `resp ++ " ~ "`. -/
def collectAics (O : OLS) (resp : String) (remaining : List String) :
    DataFrame → List String → (Except Err (List (String × ℚ × FittedModel))) × DataFrame
  | df, [] => (.ok [], df)
  | df, v :: vs =>
    match O.fit (mkFormula resp (remaining.filter (fun x => x != v))) df with
    | .error e => (.error (.fitError e), df)
    | .ok (m, df1) =>
      match collectAics O resp remaining df1 vs with
      | (.error e, df2) => (.error e, df2)
      | (.ok rest, df2) => (.ok ((v, m.aic, m) :: rest), df2)

/-- The `while True` loop of backward elimination by AIC (source lines
95-118): sort the candidate removals by AIC, take the first, commit it only
when it strictly improves the current AIC.  `aic_values[0]` on an empty
list would raise IndexError.  The trace records each removed variable with
the AIC after its removal. -/
def baLoop (O : OLS) (resp : String) :
    Nat → DataFrame → List String → FittedModel → ℚ → FRes
  | 0, df, _, _, _ => (.error .fuelExhausted, df)
  | fuel + 1, df, remaining, cur, curAic =>
    match collectAics O resp remaining df remaining with
    | (.error e, df1) => (.error e, df1)
    | (.ok cands, df1) =>
      match (sortByKey (fun x => x.2.1) cands).head? with
      | none => (.error .indexError, df1)
      | some (v, a, m) =>
        if a < curAic then
          match baLoop O resp fuel df1 (remaining.erase v) m a with
          | (.error e, df2) => (.error e, df2)
          | (.ok (mf, s, tr), df2) => (.ok (mf, s, (v, a) :: tr), df2)
        else (.ok (cur, remaining, []), df1)

/-- `backward_selection_aic(data, response)`, source lines 65-121.
`list(data.columns).remove(response)` raises ValueError when the response
is not a column; the initial fit is on all remaining columns. -/
def backward_selection_aic (O : OLS) (df : DataFrame) (resp : String) : FRes :=
  if resp ∈ df.columns then
    let remaining := df.columns.erase resp
    match O.fit (mkFormula resp remaining) df with
    | .error e => (.error (.fitError e), df)
    | .ok (m, df1) => baLoop O resp (remaining.length + 1) df1 remaining m m.aic
  else (.error .removeMissing, df)

/-! ## backward_selection_pvalue (source lines 292-350) -/

/-- The `while True` loop of backward elimination by p-value (source lines
323-347): drop the intercept from the p-value series, take the first
maximum (`idxmax`; ValueError on an empty series), and when it exceeds
alpha remove that variable (`list.remove`; ValueError when absent) and
refit, falling back to the intercept-only formula when no variable is
left. -/
def bpLoop (O : OLS) (resp : String) (alpha : ℚ) :
    Nat → DataFrame → List String → FittedModel → PRes
  | 0, df, _, _ => (.error .fuelExhausted, df)
  | fuel + 1, df, remaining, model =>
    match firstArgmax (model.pvalues.filter (fun x => x.1 != "Intercept")) with
    | none => (.error .emptyIdxmax, df)
    | some (w, wp) =>
      if wp > alpha then
        if w ∈ remaining then
          let remaining1 := remaining.erase w
          match O.fit (if remaining1.isEmpty then interceptFormula resp
                       else mkFormula resp remaining1) df with
          | .error e => (.error (.fitError e), df)
          | .ok (m1, df1) =>
            match bpLoop O resp alpha fuel df1 remaining1 m1 with
            | (.error e, df2) => (.error e, df2)
            | (.ok (mf, s, tr), df2) => (.ok (mf, s, (w, wp, model) :: tr), df2)
        else (.error .removeMissing, df)
      else (.ok (model, remaining, []), df)

/-- `backward_selection_pvalue(data, response, alpha)`, source lines
292-350.  The trace records each removed variable, its p-value, and the
model that p-value was read from. -/
def backward_selection_pvalue (O : OLS) (df : DataFrame) (resp : String)
    (alpha : ℚ) : PRes :=
  if resp ∈ df.columns then
    let remaining := df.columns.erase resp
    match O.fit (mkFormula resp remaining) df with
    | .error e => (.error (.fitError e), df)
    | .ok (m, df1) => bpLoop O resp alpha (remaining.length + 1) df1 remaining m
  else (.error .removeMissing, df)

/-! ## stepwise_selection_both (source lines 125-287) -/

/-- Events of the stepwise search: an inclusion records the variable, its
p-value in the trial fit and the new AIC; a removal records the variable
and the new AIC. -/
inductive SwEvent where
  | add (v : String) (pval aic : ℚ)
  | drop (v : String) (aic : ℚ)
deriving DecidableEq

/-- Result type of the stepwise embedding. -/
abbrev SwRes := (Except Err (FittedModel × List String × List SwEvent)) × DataFrame

/-- The inclusion scan (source lines 181-187): for each remaining variable,
fit `response ~ selected + var` and record `(var, aic, pvalue-of-var,
model)`; reading a missing p-value label raises KeyError. -/
def collectIncl (O : OLS) (resp : String) (selected : List String) :
    DataFrame → List String → (Except Err (List (String × ℚ × ℚ × FittedModel))) × DataFrame
  | df, [] => (.ok [], df)
  | df, v :: vs =>
    match O.fit (mkFormula resp (selected ++ [v])) df with
    | .error e => (.error (.fitError e), df)
    | .ok (m, df1) =>
      match m.pvalues.lookup v with
      | none => (.error .keyError, df1)
      | some p =>
        match collectIncl O resp selected df1 vs with
        | (.error e, df2) => (.error e, df2)
        | (.ok rest, df2) => (.ok ((v, m.aic, p, m) :: rest), df2)

/-- The variable list fitted when trying to remove `v` (source line 204). -/
def swRemovalVars (selected : List String) (v : String) : List String :=
  selected.filter (fun x => x != v)

/-- The formula fitted when trying to remove `v` (source lines 205-209):
intercept-only when removing the last selected variable. -/
def swRemovalFormula (resp : String) (selected : List String) (v : String) : String :=
  if (swRemovalVars selected v).isEmpty then interceptFormula resp
  else mkFormula resp (swRemovalVars selected v)

/-- The removal scan (source lines 201-217): for each selected variable,
fit the model without it and record `(var, aic, model)`. -/
def collectRem (O : OLS) (resp : String) (selected : List String) :
    DataFrame → List String → (Except Err (List (String × ℚ × FittedModel))) × DataFrame
  | df, [] => (.ok [], df)
  | df, v :: vs =>
    match O.fit (swRemovalFormula resp selected v) df with
    | .error e => (.error (.fitError e), df)
    | .ok (m, df1) =>
      match collectRem O resp selected df1 vs with
      | (.error e, df2) => (.error e, df2)
      | (.ok rest, df2) => (.ok ((v, m.aic, m) :: rest), df2)

/-- Sort the inclusion candidates by AIC and take the first (source lines
190-193); `none` when there are no candidates (source lines 194-197). -/
def bestInclCand (cands : List (String × ℚ × ℚ × FittedModel)) :
    Option (String × ℚ × ℚ × FittedModel) :=
  (sortByKey (fun x => x.2.1) cands).head?

/-- Sort the removal candidates by AIC and take the first (source lines
220-221); `none` when there are none (source lines 222-225). -/
def bestRemCand (cands : List (String × ℚ × FittedModel)) :
    Option (String × ℚ × FittedModel) :=
  (sortByKey (fun x => x.2.1) cands).head?

/-- `do_inclusion` (source line 234): the best inclusion candidate exists,
improves the AIC, and its own p-value is below `threshold_in`.  The empty
candidate list corresponds to the source placeholders `aic = inf`,
`pval = 1.0`, for which the conjunction is false. -/
def doInclusionFlag (tin ba : ℚ) : Option (String × ℚ × ℚ × FittedModel) → Bool
  | none => false
  | some c => decide (c.2.1 < ba) && decide (c.2.2.1 < tin)

/-- `worst_var_pval` (source lines 240-243): the p-value of the removal
candidate read from the current best model, defaulting to 0.0 when the
label is absent (and reading from an empty dict when nothing is
selected). -/
def worstVarPval (bm : FittedModel) (selected : List String) :
    Option (String × ℚ × FittedModel) → ℚ
  | none => 0
  | some c =>
    match (if selected.isEmpty then ([] : List (String × ℚ)) else bm.pvalues).lookup c.1 with
    | some p => p
    | none => 0

/-- `do_removal` (source lines 244-247): the best removal candidate exists,
improves the AIC, and `worst_var_pval` exceeds `threshold_out`. -/
def doRemovalFlag (tout ba : ℚ) (bm : FittedModel) (selected : List String) :
    Option (String × ℚ × FittedModel) → Bool
  | none => false
  | some c => decide (c.2.1 < ba) && decide (worstVarPval bm selected (some c) > tout)

/-- Conflict resolution (source lines 251-257): when both flags are set,
cancel the inclusion when the removal drops the AIC strictly more,
otherwise cancel the removal (so an exact tie keeps the inclusion). -/
def resolveFlags (ba aInc aRem : ℚ) (inc rem : Bool) : Bool × Bool :=
  if inc && rem then
    if ba - aRem > ba - aInc then (false, rem) else (inc, false)
  else (inc, rem)

/-- AIC of an optional inclusion candidate; the `none` value is never
consulted (both flags set forces both candidates present), it stands in
for the source placeholder `float('inf')`. -/
def inclAicOf : Option (String × ℚ × ℚ × FittedModel) → ℚ
  | none => 0
  | some c => c.2.1

/-- AIC of an optional removal candidate; same placeholder remark. -/
def remAicOf : Option (String × ℚ × FittedModel) → ℚ
  | none => 0
  | some c => c.2.1

/-- Outcome of one iteration of the stepwise loop. -/
inductive SwStep where
  | fail (e : Err)
  | stop
  | move (sel : List String) (rem : List String) (bm : FittedModel) (ba : ℚ) (ev : SwEvent)
deriving DecidableEq

/-- One iteration of the stepwise `while improved` loop (source lines
176-284): scan inclusions, scan removals (only when something is
selected), compute both flags, resolve the conflict, and apply the
surviving action (`if do_inclusion: ... elif do_removal: ... else:
stop`). -/
def swStepRun (O : OLS) (resp : String) (tin tout : ℚ) (df : DataFrame)
    (selected remaining : List String) (bm : FittedModel) (ba : ℚ) :
    SwStep × DataFrame :=
  match collectIncl O resp selected df remaining with
  | (.error e, df1) => (.fail e, df1)
  | (.ok inclCands, df1) =>
    match (if selected.isEmpty then
             ((.ok [] : Except Err (List (String × ℚ × FittedModel))), df1)
           else collectRem O resp selected df1 selected) with
    | (.error e, df2) => (.fail e, df2)
    | (.ok remCands, df2) =>
      let bi := bestInclCand inclCands
      let br := bestRemCand remCands
      let flags := resolveFlags ba (inclAicOf bi) (remAicOf br)
          (doInclusionFlag tin ba bi) (doRemovalFlag tout ba bm selected br)
      if flags.1 then
        match bi with
        | some (v, a, p, m) =>
          (.move (selected ++ [v]) (remaining.erase v) m a (.add v p a), df2)
        | none => (.fail .indexError, df2)
      else if flags.2 then
        match br with
        | some (v, a, m) =>
          (.move (selected.erase v) (remaining ++ [v]) m a (.drop v a), df2)
        | none => (.fail .indexError, df2)
      else (.stop, df2)

/-- The stepwise `while improved` loop, fuelled. -/
def swLoop (O : OLS) (resp : String) (tin tout : ℚ) :
    Nat → DataFrame → List String → List String → FittedModel → ℚ → SwRes
  | 0, df, _, _, _, _ => (.error .fuelExhausted, df)
  | fuel + 1, df, selected, remaining, bm, ba =>
    match swStepRun O resp tin tout df selected remaining bm ba with
    | (.fail e, df1) => (.error e, df1)
    | (.stop, df1) => (.ok (bm, selected, []), df1)
    | (.move sel1 rem1 bm1 ba1 ev, df1) =>
      match swLoop O resp tin tout fuel df1 sel1 rem1 bm1 ba1 with
      | (.error e, df2) => (.error e, df2)
      | (.ok (mf, sf, tr), df2) => (.ok (mf, sf, ev :: tr), df2)

/-- All sublists of all permutations of `l`: exactly the lists whose
multiset of elements is contained in that of `l`.  Every formula the
stepwise search can fit is over such a list; this bounds the number of
distinct AIC values and hence the iteration count. -/
def permsSublists (l : List String) : List (List String) :=
  (l.permutations.map List.sublists).flatten

/-- Fuel that provably suffices for the stepwise loop: one unit per
possible strictly-decreasing AIC value, plus the final iteration. -/
def swFuel (sel0 rem0 : List String) : Nat :=
  (permsSublists (sel0 ++ rem0)).length + 2

/-- `stepwise_selection_both(data, response, initial_list, threshold_in,
threshold_out)`, source lines 125-287.  `initial_list` is copied; the
remaining set `list(set(columns) - set(selected) - {response})` is
determinised to first-occurrence column order.  The `verbose` printing has
no behavioural effect and is not modelled. -/
def stepwise_selection_both (O : OLS) (df : DataFrame) (resp : String)
    (initial : Option (List String)) (tin tout : ℚ) : SwRes :=
  let selected0 := match initial with | none => [] | some l => l
  let remaining0 := (dedupFirst df.columns).filter
      (fun x => decide (x ∉ selected0) && decide (x ≠ resp))
  match O.fit (if selected0.isEmpty then interceptFormula resp
               else mkFormula resp selected0) df with
  | .error e => (.error (.fitError e), df)
  | .ok (bm, df1) =>
    swLoop O resp tin tout (swFuel selected0 remaining0) df1 selected0 remaining0 bm bm.aic

/-! ## Spec-side descriptions, measures, and concrete test fixtures -/

/-- Replay a stepwise event trace over a starting selection: inclusions
append at the end, removals delete in place.  Used to state that the
returned list is determined by the selection events alone. -/
def applyEvents (sel : List String) (tr : List SwEvent) : List String :=
  tr.foldl (fun l e => match e with
    | .add v _ _ => l ++ [v]
    | .drop v _ => l.erase v) sel

/-- Spec-side description of the forward-selection algorithm, written from
the claim text rather than from the source: each round fits every
remaining candidate jointly with the current selection, picks a candidate
whose own p-value is globally smallest, adds it exactly when that minimum
is strictly below the significance level and otherwise stops, and the
returned model is a refit on the final selected set (intercept-only when
it is empty). -/
inductive ForwardSpec (O : OLS) (resp : String) (sl : ℚ) :
    DataFrame → List String → List String → FittedModel × List String → Prop where
  | stop_empty : ∀ df sel m df',
      O.fit (if sel.isEmpty then interceptFormula resp else mkFormula resp sel) df =
        .ok (m, df') →
      ForwardSpec O resp sl df sel [] (m, sel)
  | stop_no_sig : ∀ df df1 sel rem pvals c p m df2,
      rem ≠ [] →
      collectPvals O resp sel df rem = (.ok pvals, df1) →
      (c, p) ∈ pvals → (∀ q ∈ pvals, p ≤ q.2) → ¬ p < sl →
      O.fit (if sel.isEmpty then interceptFormula resp else mkFormula resp sel) df1 =
        .ok (m, df2) →
      ForwardSpec O resp sl df sel rem (m, sel)
  | step : ∀ df df1 sel rem pvals c p res,
      rem ≠ [] →
      collectPvals O resp sel df rem = (.ok pvals, df1) →
      (c, p) ∈ pvals → (∀ q ∈ pvals, p ≤ q.2) → p < sl →
      ForwardSpec O resp sl df1 (sel ++ [c]) (rem.erase c) res →
      ForwardSpec O resp sl df sel rem res

/-- AIC values produced by fitting each formula of a list (failed fits
contribute nothing). -/
def aicsOf (O : OLS) (df : DataFrame) (fs : List String) : List ℚ :=
  fs.filterMap (fun f => match O.fit f df with
    | .ok (m, _) => some m.aic
    | .error _ => none)

/-- Every formula the stepwise search can fit, starting from a selection
and remainder that together permute `base`: the intercept-only formula and
the formula of every sublist of every permutation of `base`. -/
def formulaUniverse (resp : String) (base : List String) : List String :=
  interceptFormula resp :: (permsSublists base).map (mkFormula resp)

/-- Termination measure for the stepwise loop: the number of distinct
attainable AIC values strictly below the current best AIC. -/
def aicMeasure (O : OLS) (df : DataFrame) (resp : String) (base : List String)
    (ba : ℚ) : Nat :=
  ((aicsOf O df (formulaUniverse resp base)).toFinset.filter (fun a => a < ba)).card

/-- A deterministic fitting oracle backed by a finite formula table; it
leaves the data table untouched and fails on formulas outside the table. -/
def tableOLS (tbl : List (String × FittedModel)) : OLS :=
  ⟨fun f df =>
    match tbl.lookup f with
    | some m => .ok (m, df)
    | none => .error ("no fit: " ++ f)⟩

/-- Test fixture: a table with response y and predictors x1, x2. -/
def dfW : DataFrame := ⟨["y", "x1", "x2"], []⟩

/-- Test fixture: a table with response y and a single predictor x1. -/
def dfOne : DataFrame := ⟨["y", "x1"], []⟩

/-- Test oracle for the fixtures above: x2 alone has the smallest p-value,
x1 alone the best AIC, the joint fit the best AIC overall, and x1 is
insignificant in the joint fit.  P-values and thresholds are integers
(think hundredths); only order comparisons matter to the algorithms. -/
def olsW : OLS := tableOLS
  [ (interceptFormula "y", ⟨[("Intercept", 1)], 20⟩),
    (mkFormula "y" ["x1"], ⟨[("Intercept", 50), ("x1", 3)], 9⟩),
    (mkFormula "y" ["x2"], ⟨[("Intercept", 50), ("x2", 2)], 10⟩),
    (mkFormula "y" ["x1", "x2"], ⟨[("Intercept", 50), ("x1", 10), ("x2", 2)], 8⟩),
    (mkFormula "y" ["x2", "x1"], ⟨[("Intercept", 50), ("x2", 2), ("x1", 50)], 8⟩) ]

/-- Fixture for the column-order experiment: predictors a and b with
identical statistics, so that no removal is ever committed. -/
def olsAB : OLS := tableOLS
  [ (mkFormula "y" ["a", "b"], ⟨[("Intercept", 50), ("a", 1), ("b", 1)], 5⟩),
    (mkFormula "y" ["b", "a"], ⟨[("Intercept", 50), ("a", 1), ("b", 1)], 5⟩),
    (mkFormula "y" ["a"], ⟨[("Intercept", 50), ("a", 1)], 7⟩),
    (mkFormula "y" ["b"], ⟨[("Intercept", 50), ("b", 1)], 7⟩) ]

/-- The a-then-b column order. -/
def dfAB : DataFrame := ⟨["y", "a", "b"], []⟩

/-- The b-then-a column order: same table contents, columns permuted. -/
def dfBA : DataFrame := ⟨["y", "b", "a"], []⟩

/-! ## Helper lemmas: sorting, argmax, dedup -/

theorem sortByKey_perm {α : Type} (key : α → ℚ) (l : List α) : sortByKey key l ~ l :=
  List.perm_insertionSort _ l

theorem sortByKey_sorted {α : Type} (key : α → ℚ) (l : List α) :
    (sortByKey key l).Sorted (fun x y => key x ≤ key y) := by
  haveI : IsTotal α (fun x y => key x ≤ key y) := ⟨fun a b => le_total _ _⟩
  haveI : IsTrans α (fun x y => key x ≤ key y) := ⟨fun a b c hab hbc => le_trans hab hbc⟩
  exact List.sorted_insertionSort _ l

theorem sortByKey_head_mem {α : Type} {key : α → ℚ} {l : List α} {x : α}
    (h : (sortByKey key l).head? = some x) : x ∈ l :=
  (sortByKey_perm key l).mem_iff.mp (List.mem_of_mem_head? h)

theorem sortByKey_head_min {α : Type} {key : α → ℚ} {l : List α} {x : α}
    (h : (sortByKey key l).head? = some x) : ∀ y ∈ l, key x ≤ key y := by
  intro y hy
  have hy' : y ∈ sortByKey key l := (sortByKey_perm key l).mem_iff.mpr hy
  have hs := sortByKey_sorted key l
  cases hsort : sortByKey key l with
  | nil => rw [hsort] at hy'; exact absurd hy' (List.not_mem_nil y)
  | cons a as =>
    rw [hsort] at h hy' hs
    cases Option.some.inj h
    rcases List.mem_cons.mp hy' with rfl | hmem
    · exact le_refl _
    · exact List.rel_of_sorted_cons hs y hmem

theorem sortByKey_head_some {α : Type} (key : α → ℚ) (a : α) (l : List α) :
    ∃ x, (sortByKey key (a :: l)).head? = some x := by
  cases hsort : sortByKey key (a :: l) with
  | nil =>
    have := (sortByKey_perm key (a :: l)).length_eq
    rw [hsort] at this
    simp at this
  | cons b bs => exact ⟨b, rfl⟩

theorem foldl_max_spec (xs : List (String × ℚ)) (b : String × ℚ) :
    (xs.foldl (fun b y => if y.2 > b.2 then y else b) b) ∈ b :: xs ∧
      ∀ z ∈ b :: xs, z.2 ≤ (xs.foldl (fun b y => if y.2 > b.2 then y else b) b).2 := by
  induction xs generalizing b with
  | nil =>
    refine ⟨List.mem_singleton.mpr rfl, ?_⟩
    intro z hz
    rw [List.mem_singleton.mp hz]
    simp
  | cons y ys ih =>
    have h := ih (if y.2 > b.2 then y else b)
    simp only [List.foldl_cons]
    constructor
    · rcases List.mem_cons.mp h.1 with hx | hx
      · rw [hx]
        split
        · exact List.mem_cons_of_mem _ (List.mem_cons_self _ _)
        · exact List.mem_cons_self _ _
      · exact List.mem_cons_of_mem _ (List.mem_cons_of_mem _ hx)
    · intro z hz
      rcases List.mem_cons.mp hz with rfl | hz'
      · refine le_trans ?_ (h.2 _ (List.mem_cons_self _ _))
        split
        · next hgt => exact le_of_lt hgt
        · exact le_refl _
      · rcases List.mem_cons.mp hz' with rfl | hz''
        · refine le_trans ?_ (h.2 _ (List.mem_cons_self _ _))
          split
          · exact le_refl _
          · next hgt => exact le_of_not_lt hgt
        · exact h.2 _ (List.mem_cons_of_mem _ hz'')

theorem firstArgmax_spec {l : List (String × ℚ)} {x : String × ℚ}
    (h : firstArgmax l = some x) : x ∈ l ∧ ∀ y ∈ l, y.2 ≤ x.2 := by
  cases l with
  | nil => simp [firstArgmax] at h
  | cons a as =>
    simp only [firstArgmax] at h
    cases Option.some.inj h
    exact foldl_max_spec as a

theorem mem_dedupFirstAux {x : String} : ∀ {seen l : List String},
    x ∈ dedupFirstAux seen l ↔ x ∈ l ∧ x ∉ seen := by
  intro seen l
  induction l generalizing seen with
  | nil => simp [dedupFirstAux]
  | cons a l ih =>
    simp only [dedupFirstAux]
    split
    · next ha =>
      rw [ih]
      constructor
      · rintro ⟨h1, h2⟩
        exact ⟨List.mem_cons_of_mem _ h1, h2⟩
      · rintro ⟨h1, h2⟩
        rcases List.mem_cons.mp h1 with rfl | h1'
        · exact absurd ha h2
        · exact ⟨h1', h2⟩
    · next ha =>
      simp only [List.mem_cons, ih, List.mem_cons, not_or]
      constructor
      · rintro (rfl | ⟨h1, h2, h3⟩)
        · exact ⟨Or.inl rfl, fun hx => ha hx⟩
        · exact ⟨Or.inr h1, h3⟩
      · rintro ⟨rfl | h1, h2⟩
        · exact Or.inl rfl
        · by_cases hxa : x = a
          · exact Or.inl hxa
          · exact Or.inr ⟨h1, hxa, h2⟩

theorem nodup_dedupFirstAux : ∀ {seen l : List String}, (dedupFirstAux seen l).Nodup := by
  intro seen l
  induction l generalizing seen with
  | nil => simp [dedupFirstAux]
  | cons a l ih =>
    simp only [dedupFirstAux]
    split
    · exact ih
    · refine List.nodup_cons.mpr ⟨fun hmem => ?_, ih⟩
      have := (mem_dedupFirstAux.mp hmem).2
      exact this (List.mem_cons_self a _)

theorem mem_dedupFirst {x : String} {l : List String} : x ∈ dedupFirst l ↔ x ∈ l := by
  simp [dedupFirst, mem_dedupFirstAux]

theorem nodup_dedupFirst (l : List String) : (dedupFirst l).Nodup :=
  nodup_dedupFirstAux

/-! ## Helper lemmas: the candidate-scan folds -/

theorem collectPvals_ok_fst {O : OLS} {resp : String} {sel : List String} :
    ∀ {df : DataFrame} {l : List String} {ps df'},
      collectPvals O resp sel df l = (.ok ps, df') → ps.map Prod.fst = l := by
  intro df l
  induction l generalizing df with
  | nil =>
    intro ps df' h
    simp only [collectPvals, Prod.mk.injEq] at h
    obtain ⟨h1, _⟩ := h
    cases h1
    rfl
  | cons c cs ih =>
    intro ps df' h
    simp only [collectPvals] at h
    split at h
    · simp at h
    · split at h
      · simp at h
      · split at h
        · simp at h
        · next rest df2 heq =>
          simp only [Prod.mk.injEq, Except.ok.injEq] at h
          obtain ⟨h1, _⟩ := h
          subst h1
          simp [ih heq]

theorem collectPvals_df (O : OLS) (resp : String) (sel : List String)
    (hO : SideEffectFree O) :
    ∀ (df : DataFrame) (l : List String), (collectPvals O resp sel df l).2 = df := by
  intro df l
  induction l generalizing df with
  | nil => rfl
  | cons c cs ih =>
    simp only [collectPvals]
    split
    · rfl
    · next m df1 heq =>
      have hdf1 : df1 = df := hO _ _ _ _ heq
      subst hdf1
      split
      · rfl
      · split
        · next e df2 heq2 =>
          have h := ih df1
          rw [heq2] at h
          exact h
        · next rest df2 heq2 =>
          have h := ih df1
          rw [heq2] at h
          exact h

theorem collectAics_ok_fst {O : OLS} {resp : String} {rem : List String} :
    ∀ {df : DataFrame} {l : List String} {cs df'},
      collectAics O resp rem df l = (.ok cs, df') →
      cs.map (fun c => c.1) = l ∧ ∀ c ∈ cs, c.2.1 = c.2.2.aic := by
  intro df l
  induction l generalizing df with
  | nil =>
    intro cs df' h
    simp only [collectAics, Prod.mk.injEq] at h
    obtain ⟨h1, _⟩ := h
    cases h1
    exact ⟨rfl, by simp⟩
  | cons v vs ih =>
    intro cs df' h
    simp only [collectAics] at h
    split at h
    · simp at h
    · next m df1 heq =>
      split at h
      · simp at h
      · next rest df2 heq2 =>
        simp only [Prod.mk.injEq, Except.ok.injEq] at h
        obtain ⟨h1, _⟩ := h
        subst h1
        obtain ⟨ih1, ih2⟩ := ih heq2
        refine ⟨by simp [ih1], ?_⟩
        intro c hc
        rcases List.mem_cons.mp hc with rfl | hc'
        · rfl
        · exact ih2 c hc'

theorem collectAics_df (O : OLS) (resp : String) (rem : List String)
    (hO : SideEffectFree O) :
    ∀ (df : DataFrame) (l : List String), (collectAics O resp rem df l).2 = df := by
  intro df l
  induction l generalizing df with
  | nil => rfl
  | cons v vs ih =>
    simp only [collectAics]
    split
    · rfl
    · next m df1 heq =>
      have hdf1 : df1 = df := hO _ _ _ _ heq
      subst hdf1
      split
      · next e df2 heq2 =>
        have h := ih df1
        rw [heq2] at h
        exact h
      · next rest df2 heq2 =>
        have h := ih df1
        rw [heq2] at h
        exact h

theorem collectIncl_ok_fst {O : OLS} {resp : String} {sel : List String} :
    ∀ {df : DataFrame} {l : List String} {cs df'},
      collectIncl O resp sel df l = (.ok cs, df') →
      cs.map (fun c => c.1) = l ∧ ∀ c ∈ cs, c.2.1 = c.2.2.2.aic := by
  intro df l
  induction l generalizing df with
  | nil =>
    intro cs df' h
    simp only [collectIncl, Prod.mk.injEq] at h
    obtain ⟨h1, _⟩ := h
    cases h1
    exact ⟨rfl, by simp⟩
  | cons v vs ih =>
    intro cs df' h
    simp only [collectIncl] at h
    split at h
    · simp at h
    · next m df1 heq =>
      split at h
      · simp at h
      · split at h
        · simp at h
        · next rest df2 heq2 =>
          simp only [Prod.mk.injEq, Except.ok.injEq] at h
          obtain ⟨h1, _⟩ := h
          subst h1
          obtain ⟨ih1, ih2⟩ := ih heq2
          refine ⟨by simp [ih1], ?_⟩
          intro c hc
          rcases List.mem_cons.mp hc with rfl | hc'
          · rfl
          · exact ih2 c hc'

theorem collectIncl_df (O : OLS) (resp : String) (sel : List String)
    (hO : SideEffectFree O) :
    ∀ (df : DataFrame) (l : List String), (collectIncl O resp sel df l).2 = df := by
  intro df l
  induction l generalizing df with
  | nil => rfl
  | cons v vs ih =>
    simp only [collectIncl]
    split
    · rfl
    · next m df1 heq =>
      have hdf1 : df1 = df := hO _ _ _ _ heq
      subst hdf1
      split
      · rfl
      · split
        · next e df2 heq2 =>
          have h := ih df1
          rw [heq2] at h
          exact h
        · next rest df2 heq2 =>
          have h := ih df1
          rw [heq2] at h
          exact h

theorem collectIncl_ok_fits {O : OLS} {resp : String} {sel : List String}
    (hO : SideEffectFree O) :
    ∀ {df : DataFrame} {l : List String} {cs df'},
      collectIncl O resp sel df l = (.ok cs, df') →
      ∀ c ∈ cs, O.fit (mkFormula resp (sel ++ [c.1])) df = .ok (c.2.2.2, df) := by
  intro df l
  induction l generalizing df with
  | nil =>
    intro cs df' h
    simp only [collectIncl, Prod.mk.injEq] at h
    obtain ⟨h1, _⟩ := h
    cases h1
    simp
  | cons v vs ih =>
    intro cs df' h
    simp only [collectIncl] at h
    split at h
    · simp at h
    · next m df1 heq =>
      have hdf1 : df1 = df := hO _ _ _ _ heq
      subst hdf1
      split at h
      · simp at h
      · split at h
        · simp at h
        · next rest df2 heq2 =>
          simp only [Prod.mk.injEq, Except.ok.injEq] at h
          obtain ⟨h1, _⟩ := h
          subst h1
          intro c hc
          rcases List.mem_cons.mp hc with rfl | hc'
          · exact heq
          · exact ih heq2 c hc'

theorem collectRem_ok_fst {O : OLS} {resp : String} {sel : List String} :
    ∀ {df : DataFrame} {l : List String} {cs df'},
      collectRem O resp sel df l = (.ok cs, df') →
      cs.map (fun c => c.1) = l ∧ ∀ c ∈ cs, c.2.1 = c.2.2.aic := by
  intro df l
  induction l generalizing df with
  | nil =>
    intro cs df' h
    simp only [collectRem, Prod.mk.injEq] at h
    obtain ⟨h1, _⟩ := h
    cases h1
    exact ⟨rfl, by simp⟩
  | cons v vs ih =>
    intro cs df' h
    simp only [collectRem] at h
    split at h
    · simp at h
    · next m df1 heq =>
      split at h
      · simp at h
      · next rest df2 heq2 =>
        simp only [Prod.mk.injEq, Except.ok.injEq] at h
        obtain ⟨h1, _⟩ := h
        subst h1
        obtain ⟨ih1, ih2⟩ := ih heq2
        refine ⟨by simp [ih1], ?_⟩
        intro c hc
        rcases List.mem_cons.mp hc with rfl | hc'
        · rfl
        · exact ih2 c hc'

theorem collectRem_df (O : OLS) (resp : String) (sel : List String)
    (hO : SideEffectFree O) :
    ∀ (df : DataFrame) (l : List String), (collectRem O resp sel df l).2 = df := by
  intro df l
  induction l generalizing df with
  | nil => rfl
  | cons v vs ih =>
    simp only [collectRem]
    split
    · rfl
    · next m df1 heq =>
      have hdf1 : df1 = df := hO _ _ _ _ heq
      subst hdf1
      split
      · next e df2 heq2 =>
        have h := ih df1
        rw [heq2] at h
        exact h
      · next rest df2 heq2 =>
        have h := ih df1
        rw [heq2] at h
        exact h

theorem collectRem_ok_fits {O : OLS} {resp : String} {sel : List String}
    (hO : SideEffectFree O) :
    ∀ {df : DataFrame} {l : List String} {cs df'},
      collectRem O resp sel df l = (.ok cs, df') →
      ∀ c ∈ cs, O.fit (swRemovalFormula resp sel c.1) df = .ok (c.2.2, df) := by
  intro df l
  induction l generalizing df with
  | nil =>
    intro cs df' h
    simp only [collectRem, Prod.mk.injEq] at h
    obtain ⟨h1, _⟩ := h
    cases h1
    simp
  | cons v vs ih =>
    intro cs df' h
    simp only [collectRem] at h
    split at h
    · simp at h
    · next m df1 heq =>
      have hdf1 : df1 = df := hO _ _ _ _ heq
      subst hdf1
      split at h
      · simp at h
      · next rest df2 heq2 =>
        simp only [Prod.mk.injEq, Except.ok.injEq] at h
        obtain ⟨h1, _⟩ := h
        subst h1
        intro c hc
        rcases List.mem_cons.mp hc with rfl | hc'
        · exact heq
        · exact ih heq2 c hc'

/-! ## Data-table preservation -/

theorem forwardFinish_df {O : OLS} {resp : String} (hO : SideEffectFree O)
    (df : DataFrame) (sel : List String) : (forwardFinish O resp df sel).2 = df := by
  simp only [forwardFinish]
  split
  · rfl
  · next m df1 heq => exact hO _ _ _ _ heq

theorem forwardLoop_df {O : OLS} {resp : String} {sl : ℚ} (hO : SideEffectFree O) :
    ∀ (fuel : Nat) (df : DataFrame) (sel rem : List String),
      (forwardLoop O resp sl fuel df sel rem).2 = df := by
  intro fuel
  induction fuel with
  | zero => intro df sel rem; rfl
  | succ n ih =>
    intro df sel rem
    cases rem with
    | nil => exact forwardFinish_df hO df sel
    | cons r rs =>
      simp only [forwardLoop]
      split
      · next e df1 heq =>
        have h := collectPvals_df O resp sel hO df (r :: rs)
        rw [heq] at h
        exact h
      · next pvals df1 heq =>
        have h := collectPvals_df O resp sel hO df (r :: rs)
        rw [heq] at h
        subst h
        split
        · rfl
        · next c p heq2 =>
          split
          · split
            · next e df2 heq3 =>
              have h2 := ih df1 (sel ++ [c]) ((r :: rs).erase c)
              rw [heq3] at h2
              exact h2
            · next m s tr df2 heq3 =>
              have h2 := ih df1 (sel ++ [c]) ((r :: rs).erase c)
              rw [heq3] at h2
              exact h2
          · exact forwardFinish_df hO df1 sel

theorem baLoop_df {O : OLS} {resp : String} (hO : SideEffectFree O) :
    ∀ (fuel : Nat) (df : DataFrame) (rem : List String) (cur : FittedModel) (curAic : ℚ),
      (baLoop O resp fuel df rem cur curAic).2 = df := by
  intro fuel
  induction fuel with
  | zero => intro df rem cur curAic; rfl
  | succ n ih =>
    intro df rem cur curAic
    simp only [baLoop]
    split
    · next e df1 heq =>
      have h := collectAics_df O resp rem hO df rem
      rw [heq] at h
      exact h
    · next cands df1 heq =>
      have h := collectAics_df O resp rem hO df rem
      rw [heq] at h
      subst h
      split
      · rfl
      · next v a m heq2 =>
        split
        · split
          · next e df2 heq3 =>
            have h2 := ih df1 (rem.erase v) m a
            rw [heq3] at h2
            exact h2
          · next mf s tr df2 heq3 =>
            have h2 := ih df1 (rem.erase v) m a
            rw [heq3] at h2
            exact h2
        · rfl

theorem bpLoop_df {O : OLS} {resp : String} {alpha : ℚ} (hO : SideEffectFree O) :
    ∀ (fuel : Nat) (df : DataFrame) (rem : List String) (model : FittedModel),
      (bpLoop O resp alpha fuel df rem model).2 = df := by
  intro fuel
  induction fuel with
  | zero => intro df rem model; rfl
  | succ n ih =>
    intro df rem model
    simp only [bpLoop]
    split
    · rfl
    · next w wp heq =>
      split
      · split
        · split
          · rfl
          · next m1 df1 heq2 =>
            have hdf1 : df1 = df := hO _ _ _ _ heq2
            split
            · next e df2 heq3 =>
              have h2 := ih df1 (rem.erase w) m1
              rw [heq3] at h2
              rw [h2, hdf1]
            · next mf s tr df2 heq3 =>
              have h2 := ih df1 (rem.erase w) m1
              rw [heq3] at h2
              rw [h2, hdf1]
        · rfl
      · rfl

theorem swStepRun_df (O : OLS) (resp : String) (tin tout : ℚ) (hO : SideEffectFree O)
    (df : DataFrame) (sel rem : List String) (bm : FittedModel) (ba : ℚ) :
    (swStepRun O resp tin tout df sel rem bm ba).2 = df := by
  simp only [swStepRun]
  split
  · next e df1 heq =>
    have h := collectIncl_df O resp sel hO df rem
    rw [heq] at h
    exact h
  · next inclCands df1 heq =>
    have h := collectIncl_df O resp sel hO df rem
    rw [heq] at h
    subst h
    split
    · next e df2 heq2 =>
      by_cases hsel : sel.isEmpty
      · rw [if_pos hsel] at heq2
        simp at heq2
      · rw [if_neg hsel] at heq2
        have h2 := collectRem_df O resp sel hO df1 sel
        rw [heq2] at h2
        exact h2
    · next remCands df2 heq2 =>
      have hdf2 : df2 = df1 := by
        by_cases hsel : sel.isEmpty
        · rw [if_pos hsel] at heq2
          simp only [Prod.mk.injEq] at heq2
          exact heq2.2.symm
        · rw [if_neg hsel] at heq2
          have h2 := collectRem_df O resp sel hO df1 sel
          rw [heq2] at h2
          exact h2
      subst hdf2
      split
      · split
        · rfl
        · rfl
      · split
        · split
          · rfl
          · rfl
        · rfl

theorem swLoop_df {O : OLS} {resp : String} {tin tout : ℚ} (hO : SideEffectFree O) :
    ∀ (fuel : Nat) (df : DataFrame) (sel rem : List String) (bm : FittedModel) (ba : ℚ),
      (swLoop O resp tin tout fuel df sel rem bm ba).2 = df := by
  intro fuel
  induction fuel with
  | zero => intro df sel rem bm ba; rfl
  | succ n ih =>
    intro df sel rem bm ba
    simp only [swLoop]
    split
    · next e df1 heq =>
      have h := swStepRun_df O resp tin tout hO df sel rem bm ba
      rw [heq] at h
      exact h
    · next df1 heq =>
      have h := swStepRun_df O resp tin tout hO df sel rem bm ba
      rw [heq] at h
      exact h
    · next sel1 rem1 bm1 ba1 ev df1 heq =>
      have h := swStepRun_df O resp tin tout hO df sel rem bm ba
      rw [heq] at h
      subst h
      split
      · next e df2 heq2 =>
        have h2 := ih df1 sel1 rem1 bm1 ba1
        rw [heq2] at h2
        exact h2
      · next mf sf tr df2 heq2 =>
        have h2 := ih df1 sel1 rem1 bm1 ba1
        rw [heq2] at h2
        exact h2

/-! ## Claim C10 -/

theorem tableOLS_sef (tbl : List (String × FittedModel)) : SideEffectFree (tableOLS tbl) := by
  intro f d m d' h
  simp only [tableOLS] at h
  split at h
  · simp only [Except.ok.injEq, Prod.mk.injEq] at h
    exact h.2.symm
  · simp at h

/-- Claim C10: none of the four selection functions mutates the input
dataset.  Given that every fit is side-effect-free (the source treats the
fitting capability as such), the data table coming out of any of the four
calls — on success and on propagated failure alike — is exactly the input
table; the only evolving state is the local bookkeeping. -/
theorem selection_functions_preserve_data (O : OLS) (df : DataFrame) (resp : String)
    (hO : SideEffectFree O) :
    (∀ sl, (forward_selection O df resp sl).2 = df) ∧
    ((backward_selection_aic O df resp).2 = df) ∧
    (∀ alpha, (backward_selection_pvalue O df resp alpha).2 = df) ∧
    (∀ initial tin tout, (stepwise_selection_both O df resp initial tin tout).2 = df) := by
  refine ⟨?_, ?_, ?_, ?_⟩
  · intro sl
    by_cases h : resp ∈ df.columns
    · simp only [forward_selection, h, if_true]
      exact forwardLoop_df hO _ df _ _
    · simp [forward_selection, h]
  · by_cases h : resp ∈ df.columns
    · simp only [backward_selection_aic, h, if_true]
      split
      · rfl
      · next m df1 heq =>
        have hdf1 : df1 = df := hO _ _ _ _ heq
        rw [baLoop_df hO _ df1 _ m m.aic, hdf1]
    · simp [backward_selection_aic, h]
  · intro alpha
    by_cases h : resp ∈ df.columns
    · simp only [backward_selection_pvalue, h, if_true]
      split
      · rfl
      · next m df1 heq =>
        have hdf1 : df1 = df := hO _ _ _ _ heq
        rw [bpLoop_df hO _ df1 _ m, hdf1]
    · simp [backward_selection_pvalue, h]
  · intro initial tin tout
    simp only [stepwise_selection_both]
    split
    · rfl
    · next bm df1 heq =>
      have hdf1 : df1 = df := hO _ _ _ _ heq
      rw [swLoop_df hO _ df1 _ _ bm bm.aic, hdf1]

/-- Witness for C10: the preservation theorem applied to a concrete
side-effect-free oracle and table. -/
theorem selection_functions_preserve_data_witness :
    (forward_selection olsW dfW "y" 5).2 = dfW ∧
    (stepwise_selection_both olsW dfW "y" none 5 5).2 = dfW := by
  have h := selection_functions_preserve_data olsW dfW "y" (tableOLS_sef _)
  exact ⟨h.1 5, h.2.2.2 none 5 5⟩

/-! ## Stepwise step analysis -/

theorem resolveFlags_fst {ba aI aR : ℚ} {inc rem : Bool}
    (h : (resolveFlags ba aI aR inc rem).1 = true) : inc = true := by
  simp only [resolveFlags] at h
  split at h
  · split at h
    · simp at h
    · exact h
  · exact h

theorem resolveFlags_snd {ba aI aR : ℚ} {inc rem : Bool}
    (h : (resolveFlags ba aI aR inc rem).2 = true) : rem = true := by
  simp only [resolveFlags] at h
  split at h
  · split at h
    · exact h
    · simp at h
  · exact h

theorem doInclusionFlag_some {tin ba : ℚ} {c : String × ℚ × ℚ × FittedModel}
    (h : doInclusionFlag tin ba (some c) = true) : c.2.1 < ba ∧ c.2.2.1 < tin := by
  simpa [doInclusionFlag] using h

theorem doRemovalFlag_some {tout ba : ℚ} {bm : FittedModel} {sel : List String}
    {c : String × ℚ × FittedModel}
    (h : doRemovalFlag tout ba bm sel (some c) = true) :
    c.2.1 < ba ∧ worstVarPval bm sel (some c) > tout := by
  simpa [doRemovalFlag] using h

theorem swStepRun_move {O : OLS} {resp : String} {tin tout : ℚ} {df : DataFrame}
    {sel rem : List String} {bm : FittedModel} {ba : ℚ}
    {sel1 rem1 : List String} {bm1 : FittedModel} {ba1 : ℚ} {ev : SwEvent} {df1 : DataFrame}
    (h : swStepRun O resp tin tout df sel rem bm ba = (.move sel1 rem1 bm1 ba1 ev, df1)) :
    ba1 < ba ∧
    ((∃ v p, v ∈ rem ∧ sel1 = sel ++ [v] ∧ rem1 = rem.erase v ∧ ev = .add v p ba1) ∨
     (∃ v, v ∈ sel ∧ sel1 = sel.erase v ∧ rem1 = rem ++ [v] ∧ ev = .drop v ba1)) := by
  simp only [swStepRun] at h
  split at h
  · simp at h
  · next inclCands dfA heq =>
    split at h
    · simp at h
    · next remCands dfB heq2 =>
      split at h
      · next hf1 =>
        split at h
        · next v a p m heqBi =>
          simp only [Prod.mk.injEq, SwStep.move.injEq] at h
          obtain ⟨⟨hsel, hrem, hbm, hba, hev⟩, hdf⟩ := h
          have hinc := resolveFlags_fst hf1
          rw [heqBi] at hinc
          have hlt := (doInclusionFlag_some hinc).1
          have hc : (v, a, p, m) ∈ inclCands := sortByKey_head_mem heqBi
          have hfst := (collectIncl_ok_fst heq).1
          have hv : v ∈ rem := by
            have := List.mem_map_of_mem (fun c => c.1) hc
            rwa [hfst] at this
          subst hba
          exact ⟨hlt, Or.inl ⟨v, p, hv, hsel.symm, hrem.symm, hev.symm⟩⟩
        · simp at h
      · next hf1 =>
        split at h
        · next hf2 =>
          split at h
          · next v a m heqBr =>
            simp only [Prod.mk.injEq, SwStep.move.injEq] at h
            obtain ⟨⟨hsel, hrem, hbm, hba, hev⟩, hdf⟩ := h
            have hrm := resolveFlags_snd hf2
            rw [heqBr] at hrm
            have hlt := (doRemovalFlag_some hrm).1
            have hc : (v, a, m) ∈ remCands := sortByKey_head_mem heqBr
            have hv : v ∈ sel := by
              by_cases hse : sel.isEmpty
              · rw [if_pos hse] at heq2
                simp only [Prod.mk.injEq, Except.ok.injEq] at heq2
                rw [← heq2.1] at hc
                exact absurd hc (List.not_mem_nil _)
              · rw [if_neg hse] at heq2
                have hfst := (collectRem_ok_fst heq2).1
                have := List.mem_map_of_mem (fun c => c.1) hc
                rwa [hfst] at this
            subst hba
            exact ⟨hlt, Or.inr ⟨v, hv, hsel.symm, hrem.symm, hev.symm⟩⟩
          · simp at h
        · simp at h

/-! ## Result-shape lemmas for the loops -/

theorem forwardFinish_ok {O : OLS} {resp : String} {df : DataFrame} {sel : List String}
    {m : FittedModel} {s : List String} {tr : List (String × ℚ)} {d' : DataFrame}
    (h : forwardFinish O resp df sel = (.ok (m, s, tr), d')) :
    s = sel ∧ tr = [] ∧
      O.fit (if sel.isEmpty then interceptFormula resp else mkFormula resp sel) df =
        .ok (m, d') := by
  simp only [forwardFinish] at h
  split at h
  · simp at h
  · next m0 df1 heq =>
    simp only [Prod.mk.injEq, Except.ok.injEq] at h
    obtain ⟨⟨hm, hs, htr⟩, hdf⟩ := h
    rw [hm, hdf] at heq
    exact ⟨hs.symm, htr.symm, heq⟩

theorem forwardLoop_ok_inv {O : OLS} {resp : String} {sl : ℚ} (P : String → Prop) :
    ∀ (fuel : Nat) (df : DataFrame) (sel rem : List String),
      sel.Nodup → rem.Nodup → (∀ v ∈ rem, v ∉ sel) →
      (∀ v ∈ sel, P v) → (∀ v ∈ rem, P v) →
      ∀ {m : FittedModel} {s : List String} {tr : List (String × ℚ)} {d' : DataFrame},
        forwardLoop O resp sl fuel df sel rem = (.ok (m, s, tr), d') →
        s.Nodup ∧ ∀ v ∈ s, P v := by
  intro fuel
  induction fuel with
  | zero =>
    intro df sel rem _ _ _ _ _ m s tr d' h
    simp [forwardLoop] at h
  | succ n ih =>
    intro df sel rem hselnd hremnd hdisj hP1 hP2 m s tr d' h
    cases rem with
    | nil =>
      obtain ⟨hs, -, -⟩ := forwardFinish_ok h
      exact hs ▸ ⟨hselnd, hP1⟩
    | cons r rs =>
      simp only [forwardLoop] at h
      split at h
      · simp at h
      · next pvals df1 heq =>
        split at h
        · simp at h
        · next c p heq2 =>
          have hc : (c, p) ∈ pvals := sortByKey_head_mem heq2
          have hfst := collectPvals_ok_fst heq
          have hcrem : c ∈ r :: rs := by
            have := List.mem_map_of_mem Prod.fst hc
            rwa [hfst] at this
          have hcnotin : c ∉ sel := hdisj c hcrem
          split at h
          · split at h
            · simp at h
            · next m' s' tr' df2 heq3 =>
              simp only [Prod.mk.injEq, Except.ok.injEq] at h
              obtain ⟨⟨-, hs, -⟩, -⟩ := h
              subst hs
              refine ih df1 (sel ++ [c]) ((r :: rs).erase c) ?_ ?_ ?_ ?_ ?_ heq3
              · rw [List.nodup_append]
                refine ⟨hselnd, List.nodup_singleton c, ?_⟩
                intro a ha hb
                rw [List.mem_singleton.mp hb] at ha
                exact hcnotin ha
              · exact hremnd.erase c
              · intro v hv
                obtain ⟨hvne, hvmem⟩ := (List.Nodup.mem_erase_iff hremnd).mp hv
                simp only [List.mem_append, List.mem_singleton]
                rintro (hvs | rfl)
                · exact hdisj v hvmem hvs
                · exact hvne rfl
              · intro v hv
                rcases List.mem_append.mp hv with hvs | hvc
                · exact hP1 v hvs
                · rw [List.mem_singleton.mp hvc]
                  exact hP2 c hcrem
              · intro v hv
                exact hP2 v (List.mem_of_mem_erase hv)
          · obtain ⟨hs, -, -⟩ := forwardFinish_ok h
            exact hs ▸ ⟨hselnd, hP1⟩

theorem baLoop_ok_sublist {O : OLS} {resp : String} :
    ∀ (fuel : Nat) (df : DataFrame) (rem : List String) (cur : FittedModel) (curAic : ℚ)
      {m : FittedModel} {s : List String} {tr : List (String × ℚ)} {d' : DataFrame},
      baLoop O resp fuel df rem cur curAic = (.ok (m, s, tr), d') → s <+ rem := by
  intro fuel
  induction fuel with
  | zero =>
    intro df rem cur curAic m s tr d' h
    simp [baLoop] at h
  | succ n ih =>
    intro df rem cur curAic m s tr d' h
    simp only [baLoop] at h
    split at h
    · simp at h
    · next cands df1 heq =>
      split at h
      · simp at h
      · next v a mv heq2 =>
        split at h
        · split at h
          · simp at h
          · next mf s' tr' df2 heq3 =>
            simp only [Prod.mk.injEq, Except.ok.injEq] at h
            obtain ⟨⟨-, hs, -⟩, -⟩ := h
            subst hs
            exact (ih df1 (rem.erase v) mv a heq3).trans (List.erase_sublist v rem)
        · simp only [Prod.mk.injEq, Except.ok.injEq] at h
          obtain ⟨⟨-, hs, -⟩, -⟩ := h
          subst hs
          exact List.Sublist.refl _

theorem bpLoop_ok_sublist {O : OLS} {resp : String} {alpha : ℚ} :
    ∀ (fuel : Nat) (df : DataFrame) (rem : List String) (model : FittedModel)
      {m : FittedModel} {s : List String} {tr : List (String × ℚ × FittedModel)} {d' : DataFrame},
      bpLoop O resp alpha fuel df rem model = (.ok (m, s, tr), d') → s <+ rem := by
  intro fuel
  induction fuel with
  | zero =>
    intro df rem model m s tr d' h
    simp [bpLoop] at h
  | succ n ih =>
    intro df rem model m s tr d' h
    simp only [bpLoop] at h
    split at h
    · simp at h
    · next w wp heq =>
      split at h
      · split at h
        · split at h
          · simp at h
          · next m1 df1 heq2 =>
            split at h
            · simp at h
            · next mf s' tr' df2 heq3 =>
              simp only [Prod.mk.injEq, Except.ok.injEq] at h
              obtain ⟨⟨-, hs, -⟩, -⟩ := h
              subst hs
              exact (ih df1 (rem.erase w) m1 heq3).trans (List.erase_sublist w rem)
        · simp at h
      · simp only [Prod.mk.injEq, Except.ok.injEq] at h
        obtain ⟨⟨-, hs, -⟩, -⟩ := h
        subst hs
        exact List.Sublist.refl _

theorem swLoop_ok_inv (P : String → Prop) {O : OLS} {resp : String} {tin tout : ℚ} :
    ∀ (fuel : Nat) (df : DataFrame) (sel rem : List String) (bm : FittedModel) (ba : ℚ),
      sel.Nodup → rem.Nodup → (∀ v ∈ rem, v ∉ sel) →
      (∀ v ∈ sel, P v) → (∀ v ∈ rem, P v) →
      ∀ {mf : FittedModel} {s : List String} {tr : List SwEvent} {d' : DataFrame},
        swLoop O resp tin tout fuel df sel rem bm ba = (.ok (mf, s, tr), d') →
        s.Nodup ∧ ∀ v ∈ s, P v := by
  intro fuel
  induction fuel with
  | zero =>
    intro df sel rem bm ba _ _ _ _ _ mf s tr d' h
    simp [swLoop] at h
  | succ n ih =>
    intro df sel rem bm ba hselnd hremnd hdisj hP1 hP2 mf s tr d' h
    simp only [swLoop] at h
    split at h
    · simp at h
    · next df1 heq =>
      simp only [Prod.mk.injEq, Except.ok.injEq] at h
      obtain ⟨⟨-, hs, -⟩, -⟩ := h
      subst hs
      exact ⟨hselnd, hP1⟩
    · next sel1 rem1 bm1 ba1 ev df1 heq =>
      split at h
      · simp at h
      · next mf' s' tr' df2 heq2 =>
        simp only [Prod.mk.injEq, Except.ok.injEq] at h
        obtain ⟨⟨-, hs, -⟩, -⟩ := h
        subst hs
        obtain ⟨-, hshape⟩ := swStepRun_move heq
        rcases hshape with ⟨v, p, hv, hsel1, hrem1, -⟩ | ⟨v, hv, hsel1, hrem1, -⟩
        · subst hsel1
          subst hrem1
          have hcnotin : v ∉ sel := hdisj v hv
          refine ih df1 (sel ++ [v]) (rem.erase v) bm1 ba1 ?_ ?_ ?_ ?_ ?_ heq2
          · rw [List.nodup_append]
            refine ⟨hselnd, List.nodup_singleton v, ?_⟩
            intro a ha hb
            rw [List.mem_singleton.mp hb] at ha
            exact hcnotin ha
          · exact hremnd.erase v
          · intro u hu
            obtain ⟨hune, humem⟩ := (List.Nodup.mem_erase_iff hremnd).mp hu
            simp only [List.mem_append, List.mem_singleton]
            rintro (hus | rfl)
            · exact hdisj u humem hus
            · exact hune rfl
          · intro u hu
            rcases List.mem_append.mp hu with hus | huc
            · exact hP1 u hus
            · rw [List.mem_singleton.mp huc]
              exact hP2 v hv
          · intro u hu
            exact hP2 u (List.mem_of_mem_erase hu)
        · subst hsel1
          subst hrem1
          have hvnotrem : v ∉ rem := fun hvr => hdisj v hvr hv
          refine ih df1 (sel.erase v) (rem ++ [v]) bm1 ba1 ?_ ?_ ?_ ?_ ?_ heq2
          · exact hselnd.erase v
          · rw [List.nodup_append]
            refine ⟨hremnd, List.nodup_singleton v, ?_⟩
            intro a ha hb
            rw [List.mem_singleton.mp hb] at ha
            exact hvnotrem ha
          · intro u hu
            rcases List.mem_append.mp hu with hur | huv
            · intro hue
              exact hdisj u hur (List.mem_of_mem_erase hue)
            · rw [List.mem_singleton.mp huv]
              intro hue
              exact ((List.Nodup.mem_erase_iff hselnd).mp hue).1 rfl
          · intro u hu
            exact hP1 u (List.mem_of_mem_erase hu)
          · intro u hu
            rcases List.mem_append.mp hu with hur | huv
            · exact hP2 u hur
            · rw [List.mem_singleton.mp huv]
              exact hP1 v hv

/-! ## Claim C8 -/

/-- Claim C8: for all four selection functions (with a duplicate-free
column list containing the response, and for the stepwise procedure an
initial list that is either absent or a duplicate-free subset of the
non-response columns), any successfully returned selected-variable list is
a duplicate-free subset of the non-response columns. -/
theorem selected_vars_subset_nodup (O : OLS) (df : DataFrame) (resp : String)
    (hcols : df.columns.Nodup) (hresp : resp ∈ df.columns) :
    (∀ sl m s tr d', forward_selection O df resp sl = (.ok (m, s, tr), d') →
        s.Nodup ∧ ∀ v ∈ s, v ∈ df.columns ∧ v ≠ resp) ∧
    (∀ m s tr d', backward_selection_aic O df resp = (.ok (m, s, tr), d') →
        s.Nodup ∧ ∀ v ∈ s, v ∈ df.columns ∧ v ≠ resp) ∧
    (∀ alpha m s tr d', backward_selection_pvalue O df resp alpha = (.ok (m, s, tr), d') →
        s.Nodup ∧ ∀ v ∈ s, v ∈ df.columns ∧ v ≠ resp) ∧
    (∀ init tin tout m s tr d',
        (init = none ∨ ∃ l, init = some l ∧ l.Nodup ∧ ∀ v ∈ l, v ∈ df.columns ∧ v ≠ resp) →
        stepwise_selection_both O df resp init tin tout = (.ok (m, s, tr), d') →
        s.Nodup ∧ ∀ v ∈ s, v ∈ df.columns ∧ v ≠ resp) := by
  have hdednd : (dedupFirst df.columns).Nodup := nodup_dedupFirst df.columns
  refine ⟨?_, ?_, ?_, ?_⟩
  · intro sl m s tr d' h
    simp only [forward_selection, hresp, if_true] at h
    refine forwardLoop_ok_inv (fun v => v ∈ df.columns ∧ v ≠ resp) _ df []
      ((dedupFirst df.columns).erase resp) List.nodup_nil (hdednd.erase resp) ?_ ?_ ?_ h
    · intro v _ hv
      exact absurd hv (List.not_mem_nil v)
    · intro v hv
      exact absurd hv (List.not_mem_nil v)
    · intro v hv
      obtain ⟨hne, hmem⟩ := (List.Nodup.mem_erase_iff hdednd).mp hv
      exact ⟨mem_dedupFirst.mp hmem, hne⟩
  · intro m s tr d' h
    simp only [backward_selection_aic, hresp, if_true] at h
    split at h
    · simp at h
    · next m0 df1 heq =>
      have hsub := baLoop_ok_sublist _ df1 (df.columns.erase resp) m0 m0.aic h
      refine ⟨hsub.nodup (hcols.erase resp), ?_⟩
      intro v hv
      have hv' := hsub.subset hv
      obtain ⟨hne, hmem⟩ := (List.Nodup.mem_erase_iff hcols).mp hv'
      exact ⟨hmem, hne⟩
  · intro alpha m s tr d' h
    simp only [backward_selection_pvalue, hresp, if_true] at h
    split at h
    · simp at h
    · next m0 df1 heq =>
      have hsub := bpLoop_ok_sublist _ df1 (df.columns.erase resp) m0 h
      refine ⟨hsub.nodup (hcols.erase resp), ?_⟩
      intro v hv
      have hv' := hsub.subset hv
      obtain ⟨hne, hmem⟩ := (List.Nodup.mem_erase_iff hcols).mp hv'
      exact ⟨hmem, hne⟩
  · intro init tin tout m s tr d' hinit h
    simp only [stepwise_selection_both] at h
    split at h
    · simp at h
    · next bm df1 heq =>
      set sel0 := (match init with | none => [] | some l => l) with hsel0
      have hs0 : sel0.Nodup ∧ ∀ v ∈ sel0, v ∈ df.columns ∧ v ≠ resp := by
        rcases hinit with rfl | ⟨l, rfl, hl1, hl2⟩
        · exact ⟨List.nodup_nil, fun v hv => absurd hv (List.not_mem_nil v)⟩
        · exact ⟨hl1, hl2⟩
      refine swLoop_ok_inv (fun v => v ∈ df.columns ∧ v ≠ resp) _ df1 sel0
        ((dedupFirst df.columns).filter
          (fun x => decide (x ∉ sel0) && decide (x ≠ resp)))
        bm bm.aic hs0.1 (hdednd.filter _) ?_ hs0.2 ?_ h
      · intro v hv
        obtain ⟨hmem, hpred⟩ := List.mem_filter.mp hv
        simp only [Bool.and_eq_true, decide_eq_true_eq] at hpred
        exact hpred.1
      · intro v hv
        obtain ⟨hmem, hpred⟩ := List.mem_filter.mp hv
        simp only [Bool.and_eq_true, decide_eq_true_eq] at hpred
        exact ⟨mem_dedupFirst.mp hmem, hpred.2⟩

/-! ## Claim C1 -/

theorem forwardLoop_ok_finalfit {O : OLS} {resp : String} {sl : ℚ} :
    ∀ (fuel : Nat) (df : DataFrame) (sel rem : List String)
      {m : FittedModel} {s : List String} {tr : List (String × ℚ)} {d' : DataFrame},
      forwardLoop O resp sl fuel df sel rem = (.ok (m, s, tr), d') →
      ∃ dmid, O.fit (if s.isEmpty then interceptFormula resp else mkFormula resp s) dmid =
        .ok (m, d') := by
  intro fuel
  induction fuel with
  | zero =>
    intro df sel rem m s tr d' h
    simp [forwardLoop] at h
  | succ n ih =>
    intro df sel rem m s tr d' h
    cases rem with
    | nil =>
      obtain ⟨hs, -, hfit⟩ := forwardFinish_ok h
      subst hs
      exact ⟨df, hfit⟩
    | cons r rs =>
      simp only [forwardLoop] at h
      split at h
      · simp at h
      · next pvals df1 heq =>
        split at h
        · simp at h
        · next c p heq2 =>
          split at h
          · split at h
            · simp at h
            · next m' s' tr' df2 heq3 =>
              simp only [Prod.mk.injEq, Except.ok.injEq] at h
              obtain ⟨⟨hm, hs, -⟩, hdf⟩ := h
              subst hm; subst hs; subst hdf
              exact ih df1 (sel ++ [c]) ((r :: rs).erase c) heq3
          · obtain ⟨hs, -, hfit⟩ := forwardFinish_ok h
            subst hs
            exact ⟨df1, hfit⟩

/-- Claim C1, corrected.  What the code actually guarantees about empty
predictor sets: `forward_selection` refits with the intercept-only formula
whenever its final selection is empty; `stepwise_selection_both` fits the
intercept-only formula as its baseline when nothing is initially selected
and as the removal trial for the last selected variable; but
`backward_selection_aic` fits the degenerate formula built from the empty
variable list — which is not the intercept-only formula — when the
minus-one set is empty, and `backward_selection_pvalue`, on any iteration
whose model carries no non-intercept p-value (the situation right after a
removal empties the predictor set), raises the empty-series error instead
of completing normally. -/
theorem empty_predictor_fallback_amended :
    (∀ (O : OLS) (df : DataFrame) (resp : String) (sl : ℚ) m tr d',
      forward_selection O df resp sl = (.ok (m, [], tr), d') →
      ∃ dmid, O.fit (interceptFormula resp) dmid = .ok (m, d')) ∧
    (∀ (O : OLS) (df : DataFrame) (resp : String) (tin tout : ℚ) (e : String),
      O.fit (interceptFormula resp) df = .error e →
      stepwise_selection_both O df resp none tin tout = (.error (.fitError e), df)) ∧
    (∀ resp v, swRemovalFormula resp [v] v = interceptFormula resp) ∧
    (∀ resp v, mkFormula resp (List.filter (fun x => x != v) [v]) = mkFormula resp [] ∧
      mkFormula resp [] ≠ interceptFormula resp) ∧
    (∀ (O : OLS) (resp : String) (alpha : ℚ) (fuel : Nat) (df : DataFrame)
      (rem : List String) (model : FittedModel),
      model.pvalues.filter (fun x => x.1 != "Intercept") = [] →
      bpLoop O resp alpha (fuel + 1) df rem model = (.error .emptyIdxmax, df)) := by
  refine ⟨?_, ?_, ?_, ?_, ?_⟩
  · intro O df resp sl m tr d' hrun
    by_cases hresp : resp ∈ df.columns
    · simp only [forward_selection, hresp, if_true] at hrun
      have h := forwardLoop_ok_finalfit _ df [] ((dedupFirst df.columns).erase resp) hrun
      simpa using h
    · simp [forward_selection, hresp] at hrun
  · intro O df resp tin tout e hfit
    simp only [stepwise_selection_both, List.isEmpty_nil, if_true]
    rw [hfit]
  · intro resp v
    simp [swRemovalFormula, swRemovalVars]
  · intro resp v
    refine ⟨by simp, ?_⟩
    intro h
    have hlen := congrArg String.length h
    simp only [mkFormula, interceptFormula, String.length_append] at hlen
    have e1 : (" ~ " : String).length = 3 := rfl
    have e2 : (" ~ 1" : String).length = 4 := rfl
    have e3 : ((" + " : String).intercalate []).length = 0 := rfl
    rw [e1, e2, e3] at hlen
    omega
  · intro O resp alpha fuel df rem model h
    simp only [bpLoop]
    rw [h]
    rfl

/-- Counterexample to claim C1 as stated.  On the two-column table
`dfOne` (response y, single predictor x1): backward elimination by AIC
fits the degenerate formula with an empty right-hand side and propagates
the fit failure instead of falling back to an intercept-only fit, and
backward elimination by p-value, after its only removal empties the
predictor set, fails on the argmax of the empty p-value series instead of
completing normally. -/
theorem empty_predictor_fallback_counterexample :
    backward_selection_aic olsW dfOne "y" = (.error (.fitError "no fit: y ~ "), dfOne) ∧
    backward_selection_pvalue olsW dfOne "y" 1 = (.error .emptyIdxmax, dfOne) := by
  exact ⟨by decide, by decide⟩

/-- Witness for the amended C1: the forward-selection conjunct applied to a
run whose selection comes out empty (threshold 1 rejects every candidate),
and the empty-series conjunct applied to the intercept-only model of the
fixture oracle. -/
theorem empty_predictor_fallback_witness :
    (∃ dmid, olsW.fit (interceptFormula "y") dmid =
      .ok (⟨[("Intercept", 1)], 20⟩, dfW)) ∧
    bpLoop olsW "y" 5 1 dfW [] ⟨[("Intercept", 1)], 20⟩ =
      (.error .emptyIdxmax, dfW) := by
  constructor
  · exact empty_predictor_fallback_amended.1 olsW dfW "y" 1 ⟨[("Intercept", 1)], 20⟩ [] dfW
      (by decide)
  · exact empty_predictor_fallback_amended.2.2.2.2 olsW "y" 5 0 dfW [] ⟨[("Intercept", 1)], 20⟩
      (by decide)

/-! ## Claim C2 -/

theorem forwardLoop_ok_trace {O : OLS} {resp : String} {sl : ℚ} :
    ∀ (fuel : Nat) (df : DataFrame) (sel rem : List String)
      {m : FittedModel} {s : List String} {tr : List (String × ℚ)} {d' : DataFrame},
      forwardLoop O resp sl fuel df sel rem = (.ok (m, s, tr), d') →
      s = sel ++ tr.map Prod.fst := by
  intro fuel
  induction fuel with
  | zero =>
    intro df sel rem m s tr d' h
    simp [forwardLoop] at h
  | succ n ih =>
    intro df sel rem m s tr d' h
    cases rem with
    | nil =>
      obtain ⟨hs, htr, -⟩ := forwardFinish_ok h
      subst htr
      simpa using hs
    | cons r rs =>
      simp only [forwardLoop] at h
      split at h
      · simp at h
      · next pvals df1 heq =>
        split at h
        · simp at h
        · next c p heq2 =>
          split at h
          · split at h
            · simp at h
            · next m' s' tr' df2 heq3 =>
              simp only [Prod.mk.injEq, Except.ok.injEq] at h
              obtain ⟨⟨-, hs, htr⟩, -⟩ := h
              subst hs; subst htr
              rw [ih df1 (sel ++ [c]) ((r :: rs).erase c) heq3]
              simp
          · obtain ⟨hs, htr, -⟩ := forwardFinish_ok h
            subst htr
            simpa using hs

theorem baLoop_ok_trace {O : OLS} {resp : String} :
    ∀ (fuel : Nat) (df : DataFrame) (rem : List String) (cur : FittedModel) (curAic : ℚ)
      {m : FittedModel} {s : List String} {tr : List (String × ℚ)} {d' : DataFrame},
      baLoop O resp fuel df rem cur curAic = (.ok (m, s, tr), d') →
      s = tr.foldl (fun l p => l.erase p.1) rem := by
  intro fuel
  induction fuel with
  | zero =>
    intro df rem cur curAic m s tr d' h
    simp [baLoop] at h
  | succ n ih =>
    intro df rem cur curAic m s tr d' h
    simp only [baLoop] at h
    split at h
    · simp at h
    · next cands df1 heq =>
      split at h
      · simp at h
      · next v a mv heq2 =>
        split at h
        · split at h
          · simp at h
          · next mf s' tr' df2 heq3 =>
            simp only [Prod.mk.injEq, Except.ok.injEq] at h
            obtain ⟨⟨-, hs, htr⟩, -⟩ := h
            subst hs; subst htr
            exact ih df1 (rem.erase v) mv a heq3
        · simp only [Prod.mk.injEq, Except.ok.injEq] at h
          obtain ⟨⟨-, hs, htr⟩, -⟩ := h
          subst hs; subst htr
          rfl

theorem swLoop_ok_trace {O : OLS} {resp : String} {tin tout : ℚ} :
    ∀ (fuel : Nat) (df : DataFrame) (sel rem : List String) (bm : FittedModel) (ba : ℚ)
      {mf : FittedModel} {s : List String} {tr : List SwEvent} {d' : DataFrame},
      swLoop O resp tin tout fuel df sel rem bm ba = (.ok (mf, s, tr), d') →
      s = applyEvents sel tr := by
  intro fuel
  induction fuel with
  | zero =>
    intro df sel rem bm ba mf s tr d' h
    simp [swLoop] at h
  | succ n ih =>
    intro df sel rem bm ba mf s tr d' h
    simp only [swLoop] at h
    split at h
    · simp at h
    · next df1 heq =>
      simp only [Prod.mk.injEq, Except.ok.injEq] at h
      obtain ⟨⟨-, hs, htr⟩, -⟩ := h
      subst hs; subst htr
      rfl
    · next sel1 rem1 bm1 ba1 ev df1 heq =>
      split at h
      · simp at h
      · next mf' s' tr' df2 heq2 =>
        simp only [Prod.mk.injEq, Except.ok.injEq] at h
        obtain ⟨⟨-, hs, htr⟩, -⟩ := h
        subst hs; subst htr
        obtain ⟨-, hshape⟩ := swStepRun_move heq
        have hrec := ih df1 sel1 rem1 bm1 ba1 heq2
        rcases hshape with ⟨v, p, -, hsel1, -, hev⟩ | ⟨v, -, hsel1, -, hev⟩
        · subst hsel1; subst hev
          simpa [applyEvents] using hrec
        · subst hsel1; subst hev
          simpa [applyEvents] using hrec

theorem bpLoop_ok_spec {O : OLS} {resp : String} {alpha : ℚ} :
    ∀ (fuel : Nat) (df : DataFrame) (rem : List String) (model : FittedModel)
      {m : FittedModel} {s : List String} {tr : List (String × ℚ × FittedModel)}
      {d' : DataFrame},
      bpLoop O resp alpha fuel df rem model = (.ok (m, s, tr), d') →
      (∀ x ∈ m.pvalues, x.1 ≠ "Intercept" → x.2 ≤ alpha) ∧
      (∀ e ∈ tr, e.2.1 > alpha ∧ (e.1, e.2.1) ∈ e.2.2.pvalues ∧ e.1 ≠ "Intercept" ∧
        ∀ x ∈ e.2.2.pvalues, x.1 ≠ "Intercept" → x.2 ≤ e.2.1) ∧
      s = tr.foldl (fun l e => l.erase e.1) rem := by
  intro fuel
  induction fuel with
  | zero =>
    intro df rem model m s tr d' h
    simp [bpLoop] at h
  | succ n ih =>
    intro df rem model m s tr d' h
    simp only [bpLoop] at h
    split at h
    · simp at h
    · next w wp heq =>
      obtain ⟨hmem, hmax⟩ := firstArgmax_spec heq
      obtain ⟨hmemp, hpred⟩ := List.mem_filter.mp hmem
      have hwne : w ≠ "Intercept" := by simpa using hpred
      split at h
      · next hgt =>
        split at h
        · split at h
          · simp at h
          · next m1 df1 heq2 =>
            split at h
            · simp at h
            · next mf s' tr' df2 heq3 =>
              simp only [Prod.mk.injEq, Except.ok.injEq] at h
              obtain ⟨⟨hm, hs, htr⟩, -⟩ := h
              subst hm; subst hs; subst htr
              obtain ⟨ih1, ih2, ih3⟩ := ih df1 (rem.erase w) m1 heq3
              refine ⟨ih1, ?_, by simpa using ih3⟩
              intro e he
              rcases List.mem_cons.mp he with rfl | he'
              · refine ⟨hgt, hmemp, hwne, ?_⟩
                intro x hx hxne
                exact hmax x (List.mem_filter.mpr ⟨hx, by simpa using hxne⟩)
              · exact ih2 e he'
        · simp at h
      · next hngt =>
        simp only [Prod.mk.injEq, Except.ok.injEq] at h
        obtain ⟨⟨hm, hs, htr⟩, -⟩ := h
        subst hm; subst hs; subst htr
        refine ⟨?_, by simp, rfl⟩
        intro x hx hxne
        have hxle := hmax x (List.mem_filter.mpr ⟨hx, by simpa using hxne⟩)
        have hwple : wp ≤ alpha := le_of_not_lt hngt
        exact le_trans hxle hwple

/-- Claim C2, corrected.  The returned list of `forward_selection` is the
sequence of inclusion events in order, and that of
`stepwise_selection_both` is the initial selection transformed by the
inclusion/removal events in order — selection order, as the claim states.
The two backward functions, however, return the surviving variables in the
order of the input column list (an order-preserving sublist of
`data.columns`), not in any selection-derived order: their returned list
is the initial non-response column list with the removal-trace variables
deleted in place. -/
theorem selected_order_amended (O : OLS) (df : DataFrame) (resp : String) :
    (∀ sl m s tr d', forward_selection O df resp sl = (.ok (m, s, tr), d') →
      s = tr.map Prod.fst) ∧
    (∀ init tin tout m s tr d',
      stepwise_selection_both O df resp init tin tout = (.ok (m, s, tr), d') →
      s = applyEvents (match init with | none => [] | some l => l) tr) ∧
    (∀ m s tr d', backward_selection_aic O df resp = (.ok (m, s, tr), d') →
      s = tr.foldl (fun l p => l.erase p.1) (df.columns.erase resp) ∧ s <+ df.columns) ∧
    (∀ alpha m s tr d', backward_selection_pvalue O df resp alpha = (.ok (m, s, tr), d') →
      s = tr.foldl (fun l e => l.erase e.1) (df.columns.erase resp) ∧ s <+ df.columns) := by
  refine ⟨?_, ?_, ?_, ?_⟩
  · intro sl m s tr d' h
    by_cases hresp : resp ∈ df.columns
    · simp only [forward_selection, hresp, if_true] at h
      simpa using forwardLoop_ok_trace _ df [] ((dedupFirst df.columns).erase resp) h
    · simp [forward_selection, hresp] at h
  · intro init tin tout m s tr d' h
    simp only [stepwise_selection_both] at h
    split at h
    · simp at h
    · next bm df1 heq =>
      exact swLoop_ok_trace _ df1 _ _ bm bm.aic h
  · intro m s tr d' h
    by_cases hresp : resp ∈ df.columns
    · simp only [backward_selection_aic, hresp, if_true] at h
      split at h
      · simp at h
      · next m0 df1 heq =>
        refine ⟨baLoop_ok_trace _ df1 _ m0 m0.aic h, ?_⟩
        exact (baLoop_ok_sublist _ df1 _ m0 m0.aic h).trans
          (List.erase_sublist resp df.columns)
    · simp [backward_selection_aic, hresp] at h
  · intro alpha m s tr d' h
    by_cases hresp : resp ∈ df.columns
    · simp only [backward_selection_pvalue, hresp, if_true] at h
      split at h
      · simp at h
      · next m0 df1 heq =>
        refine ⟨(bpLoop_ok_spec _ df1 _ m0 h).2.2, ?_⟩
        exact (bpLoop_ok_sublist _ df1 _ m0 h).trans
          (List.erase_sublist resp df.columns)
    · simp [backward_selection_pvalue, hresp] at h

/-- Counterexample to claim C2 as stated.  Two tables that differ only in
the order of the predictor columns, under an oracle that gives identical
statistics for both, lead backward elimination by AIC through identical
(empty) removal histories, yet the returned lists are `["a", "b"]` and
`["b", "a"]` respectively: the order of the returned list tracks the input
column order, not the order in which variables were selected. -/
theorem selected_order_counterexample :
    backward_selection_aic olsAB dfAB "y" =
      (.ok (⟨[("Intercept", 50), ("a", 1), ("b", 1)], 5⟩, ["a", "b"], []), dfAB) ∧
    backward_selection_aic olsAB dfBA "y" =
      (.ok (⟨[("Intercept", 50), ("a", 1), ("b", 1)], 5⟩, ["b", "a"], []), dfBA) := by
  exact ⟨by decide, by decide⟩

/-- Witness for the amended C2 at the fixture oracle: concrete runs of all
four functions with their hypotheses discharged by evaluation. -/
theorem selected_order_witness :
    (["x2"] : List String) = [("x2", (2 : ℚ))].map Prod.fst ∧
    (["x1", "x2"] : List String) = applyEvents [] [.add "x1" 3 9, .add "x2" 2 8] ∧
    ((["x1", "x2"] : List String) =
        [].foldl (fun (l : List String) (p : String × ℚ) => l.erase p.1)
          (dfW.columns.erase "y") ∧
      (["x1", "x2"] : List String) <+ dfW.columns) ∧
    ((["x2"] : List String) =
        [("x1", (10 : ℚ), (⟨[("Intercept", 50), ("x1", 10), ("x2", 2)], 8⟩ : FittedModel))].foldl
          (fun (l : List String) (e : String × ℚ × FittedModel) => l.erase e.1)
          (dfW.columns.erase "y") ∧
      (["x2"] : List String) <+ dfW.columns) := by
  have h := selected_order_amended olsW dfW "y"
  refine ⟨?_, ?_, ?_, ?_⟩
  · exact h.1 5 ⟨[("Intercept", 50), ("x2", 2)], 10⟩ ["x2"] [("x2", 2)] dfW (by decide)
  · exact h.2.1 none 5 5 ⟨[("Intercept", 50), ("x1", 10), ("x2", 2)], 8⟩ ["x1", "x2"]
      [.add "x1" 3 9, .add "x2" 2 8] dfW (by decide)
  · exact h.2.2.1 ⟨[("Intercept", 50), ("x1", 10), ("x2", 2)], 8⟩ ["x1", "x2"] [] dfW
      (by decide)
  · exact h.2.2.2 5 ⟨[("Intercept", 50), ("x2", 2)], 10⟩ ["x2"]
      [("x1", 10, ⟨[("Intercept", 50), ("x1", 10), ("x2", 2)], 8⟩)] dfW (by decide)

/-! ## Claim C3 -/

theorem forwardLoop_sound {O : OLS} {resp : String} {sl : ℚ} :
    ∀ (fuel : Nat) (df : DataFrame) (sel rem : List String)
      {m : FittedModel} {s : List String} {tr : List (String × ℚ)} {d' : DataFrame},
      forwardLoop O resp sl fuel df sel rem = (.ok (m, s, tr), d') →
      ForwardSpec O resp sl df sel rem (m, s) := by
  intro fuel
  induction fuel with
  | zero =>
    intro df sel rem m s tr d' h
    simp [forwardLoop] at h
  | succ n ih =>
    intro df sel rem m s tr d' h
    cases rem with
    | nil =>
      obtain ⟨hs, -, hfit⟩ := forwardFinish_ok h
      rw [hs]
      exact .stop_empty df sel m d' hfit
    | cons r rs =>
      simp only [forwardLoop] at h
      split at h
      · simp at h
      · next pvals df1 heq =>
        split at h
        · simp at h
        · next c p heq2 =>
          have hmem : (c, p) ∈ pvals := sortByKey_head_mem heq2
          have hmin : ∀ y ∈ pvals, p ≤ y.2 := sortByKey_head_min heq2
          split at h
          · next hp =>
            split at h
            · simp at h
            · next m' s' tr' df2 heq3 =>
              simp only [Prod.mk.injEq, Except.ok.injEq] at h
              obtain ⟨⟨hm, hs, -⟩, -⟩ := h
              rw [← hm, ← hs]
              exact .step df df1 sel (r :: rs) pvals c p (m', s')
                (List.cons_ne_nil r rs) heq hmem hmin hp
                (ih df1 (sel ++ [c]) ((r :: rs).erase c) heq3)
          · next hp =>
            obtain ⟨hs, -, hfit⟩ := forwardFinish_ok h
            rw [hs]
            exact .stop_no_sig df df1 sel (r :: rs) pvals c p m d'
              (List.cons_ne_nil r rs) heq hmem hmin hp hfit

/-- Claim C3: `forward_selection` implements the specified round structure:
each round fits every remaining candidate jointly with the current
selection, picks a candidate with the globally smallest p-value among
those fits, adds it exactly when that minimum is strictly below the
significance level and stops otherwise, repeats until no candidate remains
or no addition qualifies, and finally refits the selected set
(intercept-only when it is empty).  Every successful run of the embedding
is a run of the spec-side description `ForwardSpec`. -/
theorem forward_selection_follows_spec (O : OLS) (df : DataFrame) (resp : String) (sl : ℚ)
    {m : FittedModel} {s : List String} {tr : List (String × ℚ)} {d' : DataFrame}
    (hrun : forward_selection O df resp sl = (.ok (m, s, tr), d')) :
    resp ∈ df.columns ∧
    ForwardSpec O resp sl df [] ((dedupFirst df.columns).erase resp) (m, s) := by
  by_cases hresp : resp ∈ df.columns
  · simp only [forward_selection, hresp, if_true] at hrun
    exact ⟨hresp, forwardLoop_sound _ df [] ((dedupFirst df.columns).erase resp) hrun⟩
  · simp [forward_selection, hresp] at hrun

/-- Witness for C3: the spec-conformance theorem applied to the fixture
run, in which x2 is selected in the first round and x1 is rejected in the
second. -/
theorem forward_selection_follows_spec_witness :
    "y" ∈ dfW.columns ∧
    ForwardSpec olsW "y" 5 dfW [] ((dedupFirst dfW.columns).erase "y")
      (⟨[("Intercept", 50), ("x2", 2)], 10⟩, ["x2"]) :=
  @forward_selection_follows_spec olsW dfW "y" 5 ⟨[("Intercept", 50), ("x2", 2)], 10⟩
    ["x2"] [("x2", 2)] dfW (by decide)

/-! ## Claim C6 -/

theorem baLoop_ok_chain {O : OLS} {resp : String} :
    ∀ (fuel : Nat) (df : DataFrame) (rem : List String) (cur : FittedModel) (curAic : ℚ)
      {m : FittedModel} {s : List String} {tr : List (String × ℚ)} {d' : DataFrame},
      curAic = cur.aic →
      baLoop O resp fuel df rem cur curAic = (.ok (m, s, tr), d') →
      List.Chain' (fun a b => b < a) (curAic :: tr.map (fun p => p.2)) ∧ m.aic ≤ curAic := by
  intro fuel
  induction fuel with
  | zero =>
    intro df rem cur curAic m s tr d' hcur h
    simp [baLoop] at h
  | succ n ih =>
    intro df rem cur curAic m s tr d' hcur h
    simp only [baLoop] at h
    split at h
    · simp at h
    · next cands df1 heq =>
      split at h
      · simp at h
      · next v a mv heq2 =>
        split at h
        · next hlt =>
          split at h
          · simp at h
          · next mf s' tr' df2 heq3 =>
            simp only [Prod.mk.injEq, Except.ok.injEq] at h
            obtain ⟨⟨hm, -, htr⟩, -⟩ := h
            subst hm; subst htr
            have hcomp := (collectAics_ok_fst heq).2 _ (sortByKey_head_mem heq2)
            obtain ⟨ih1, ih2⟩ := ih df1 (rem.erase v) mv a hcomp heq3
            refine ⟨?_, le_trans ih2 (le_of_lt hlt)⟩
            simp only [List.map_cons]
            rw [List.chain'_cons]
            exact ⟨hlt, ih1⟩
        · next hnlt =>
          simp only [Prod.mk.injEq, Except.ok.injEq] at h
          obtain ⟨⟨hm, -, htr⟩, -⟩ := h
          subst hm; subst htr
          exact ⟨List.chain'_singleton curAic, le_of_eq hcur.symm⟩

/-- Claim C6: in `backward_selection_aic` a removal is committed exactly
when the best single-variable removal has AIC strictly below the current
AIC (this is the commit test of the loop), so the successive AIC values
recorded at the committed removals form a strictly decreasing chain
starting from the full-model AIC, and the AIC of the returned model is at
most the AIC of the initial full model. -/
theorem backward_aic_monotone (O : OLS) (df : DataFrame) (resp : String)
    {m0 : FittedModel} {d0 : DataFrame}
    (hfull : O.fit (mkFormula resp (df.columns.erase resp)) df = .ok (m0, d0))
    {m : FittedModel} {s : List String} {tr : List (String × ℚ)} {d' : DataFrame}
    (hrun : backward_selection_aic O df resp = (.ok (m, s, tr), d')) :
    List.Chain' (fun a b => b < a) (m0.aic :: tr.map (fun p => p.2)) ∧ m.aic ≤ m0.aic := by
  by_cases hresp : resp ∈ df.columns
  · simp only [backward_selection_aic, hresp, if_true] at hrun
    rw [hfull] at hrun
    exact baLoop_ok_chain _ d0 (df.columns.erase resp) m0 m0.aic rfl hrun
  · simp [backward_selection_aic, hresp] at hrun

/-- Witness for C6 at the fixture run (the full model is already the AIC
minimum, so the chain is a singleton and the final model is the full
model). -/
theorem backward_aic_monotone_witness :
    List.Chain' (fun a b : ℚ => b < a)
      ((⟨[("Intercept", 50), ("x1", 10), ("x2", 2)], 8⟩ : FittedModel).aic ::
        ([] : List (String × ℚ)).map (fun p => p.2)) ∧
    (⟨[("Intercept", 50), ("x1", 10), ("x2", 2)], 8⟩ : FittedModel).aic ≤
      (⟨[("Intercept", 50), ("x1", 10), ("x2", 2)], 8⟩ : FittedModel).aic :=
  @backward_aic_monotone olsW dfW "y" ⟨[("Intercept", 50), ("x1", 10), ("x2", 2)], 8⟩ dfW
    (by decide) ⟨[("Intercept", 50), ("x1", 10), ("x2", 2)], 8⟩ ["x1", "x2"] [] dfW
    (by decide)

/-! ## Claim C7 -/

/-- Claim C7: on every successful run of `backward_selection_pvalue`,
every non-intercept term of the final fitted model has p-value at most
alpha; each trace entry removes exactly one variable per iteration, namely
a non-intercept term that attains the maximum p-value of its model, and
only when that maximum exceeds alpha; and the returned variable list is
the initial non-response column list with exactly those variables
deleted. -/
theorem backward_pvalue_final_bound (O : OLS) (df : DataFrame) (resp : String) (alpha : ℚ)
    {m : FittedModel} {s : List String} {tr : List (String × ℚ × FittedModel)}
    {d' : DataFrame}
    (hrun : backward_selection_pvalue O df resp alpha = (.ok (m, s, tr), d')) :
    (∀ x ∈ m.pvalues, x.1 ≠ "Intercept" → x.2 ≤ alpha) ∧
    (∀ e ∈ tr, e.2.1 > alpha ∧ (e.1, e.2.1) ∈ e.2.2.pvalues ∧ e.1 ≠ "Intercept" ∧
      ∀ x ∈ e.2.2.pvalues, x.1 ≠ "Intercept" → x.2 ≤ e.2.1) ∧
    s = tr.foldl (fun l e => l.erase e.1) (df.columns.erase resp) := by
  by_cases hresp : resp ∈ df.columns
  · simp only [backward_selection_pvalue, hresp, if_true] at hrun
    split at hrun
    · simp at hrun
    · next m0 df1 heq =>
      exact bpLoop_ok_spec _ df1 _ m0 hrun
  · simp [backward_selection_pvalue, hresp] at hrun

/-- Witness for C7 at the fixture run: x1 (p-value 10, the maximum of the
full model, above alpha = 5) is removed; the final model keeps x2 with
p-value 2 below alpha. -/
theorem backward_pvalue_final_bound_witness :
    (∀ x ∈ (⟨[("Intercept", 50), ("x2", 2)], 10⟩ : FittedModel).pvalues,
      x.1 ≠ "Intercept" → x.2 ≤ (5 : ℚ)) ∧
    (∀ e ∈ [("x1", (10 : ℚ),
        (⟨[("Intercept", 50), ("x1", 10), ("x2", 2)], 8⟩ : FittedModel))],
      e.2.1 > (5 : ℚ) ∧ (e.1, e.2.1) ∈ e.2.2.pvalues ∧ e.1 ≠ "Intercept" ∧
      ∀ x ∈ e.2.2.pvalues, x.1 ≠ "Intercept" → x.2 ≤ e.2.1) ∧
    (["x2"] : List String) =
      [("x1", (10 : ℚ),
        (⟨[("Intercept", 50), ("x1", 10), ("x2", 2)], 8⟩ : FittedModel))].foldl
        (fun l e => l.erase e.1) (dfW.columns.erase "y") :=
  @backward_pvalue_final_bound olsW dfW "y" 5 ⟨[("Intercept", 50), ("x2", 2)], 10⟩ ["x2"]
    [("x1", 10, ⟨[("Intercept", 50), ("x1", 10), ("x2", 2)], 8⟩)] dfW (by decide)

/-! ## Claim C4 -/

/-- Claim C4: in every iteration of `stepwise_selection_both`, the
inclusion flag is set iff the chosen minimum-AIC inclusion candidate has
AIC strictly below the current best AIC and its own p-value in its trial
fit strictly below `threshold_in`; the removal flag is set iff the chosen
minimum-AIC removal candidate has AIC strictly below the current best AIC
and its p-value as read from the current best model — defaulting to 0 when
its name is absent there — strictly above `threshold_out`.  The chosen
candidates are genuine AIC minimisers of their candidate lists, and the
empty candidate list yields a cleared flag. -/
theorem stepwise_flags (tin tout ba : ℚ) (bm : FittedModel) (sel : List String)
    (inclCands : List (String × ℚ × ℚ × FittedModel))
    (remCands : List (String × ℚ × FittedModel)) :
    (inclCands = [] → doInclusionFlag tin ba (bestInclCand inclCands) = false) ∧
    (∀ c, bestInclCand inclCands = some c →
      c ∈ inclCands ∧ (∀ x ∈ inclCands, c.2.1 ≤ x.2.1) ∧
      (doInclusionFlag tin ba (bestInclCand inclCands) = true ↔
        c.2.1 < ba ∧ c.2.2.1 < tin)) ∧
    (remCands = [] → doRemovalFlag tout ba bm sel (bestRemCand remCands) = false) ∧
    (∀ c, bestRemCand remCands = some c →
      c ∈ remCands ∧ (∀ x ∈ remCands, c.2.1 ≤ x.2.1) ∧
      (doRemovalFlag tout ba bm sel (bestRemCand remCands) = true ↔
        c.2.1 < ba ∧ worstVarPval bm sel (some c) > tout)) ∧
    (∀ c : String × ℚ × FittedModel, sel ≠ [] →
      (bm.pvalues.lookup c.1 = none → worstVarPval bm sel (some c) = 0) ∧
      (∀ p, bm.pvalues.lookup c.1 = some p → worstVarPval bm sel (some c) = p)) := by
  refine ⟨?_, ?_, ?_, ?_, ?_⟩
  · rintro rfl
    rfl
  · intro c hbi
    refine ⟨sortByKey_head_mem hbi, sortByKey_head_min hbi, ?_⟩
    rw [hbi]
    simp [doInclusionFlag]
  · rintro rfl
    rfl
  · intro c hbr
    refine ⟨sortByKey_head_mem hbr, sortByKey_head_min hbr, ?_⟩
    rw [hbr]
    simp [doRemovalFlag]
  · intro c hsel
    have hne : sel.isEmpty = false := by
      cases sel with
      | nil => exact absurd rfl hsel
      | cons a l => rfl
    constructor
    · intro hlook
      simp [worstVarPval, hne, hlook]
    · intro p hlook
      simp [worstVarPval, hne, hlook]

/-- Witness for C4 at concrete candidate lists: the minimum-AIC inclusion
candidate is x1 with AIC 9 and p-value 3; the removal candidate x1 has AIC
20 and p-value 10 in the current best model. -/
theorem stepwise_flags_witness :
    (("x1", (9 : ℚ), (3 : ℚ), (⟨[], 0⟩ : FittedModel)) ∈
        [("x1", (9 : ℚ), (3 : ℚ), (⟨[], 0⟩ : FittedModel)),
         ("x2", 10, 2, ⟨[], 0⟩)] ∧
      (∀ x ∈ [("x1", (9 : ℚ), (3 : ℚ), (⟨[], 0⟩ : FittedModel)),
         ("x2", 10, 2, ⟨[], 0⟩)],
        (("x1", (9 : ℚ), (3 : ℚ), (⟨[], 0⟩ : FittedModel)) : String × ℚ × ℚ × FittedModel).2.1
          ≤ x.2.1) ∧
      (doInclusionFlag 5 20
          (bestInclCand [("x1", (9 : ℚ), (3 : ℚ), (⟨[], 0⟩ : FittedModel)),
            ("x2", 10, 2, ⟨[], 0⟩)]) = true ↔
        (9 : ℚ) < 20 ∧ (3 : ℚ) < 5)) ∧
    ((⟨[("x1", (10 : ℚ))], 0⟩ : FittedModel).pvalues.lookup "x1" = some 10 →
      worstVarPval ⟨[("x1", (10 : ℚ))], 0⟩ ["x1"]
        (some ("x1", (20 : ℚ), (⟨[], 0⟩ : FittedModel))) = 10) := by
  constructor
  · exact (stepwise_flags 5 5 20 ⟨[], 0⟩ []
      [("x1", 9, 3, ⟨[], 0⟩), ("x2", 10, 2, ⟨[], 0⟩)] []).2.1
      ("x1", 9, 3, ⟨[], 0⟩) (by decide)
  · exact fun hl => ((stepwise_flags 5 5 20 ⟨[("x1", 10)], 0⟩ ["x1"] []
      [("x1", 20, ⟨[], 0⟩)]).2.2.2.2 ("x1", 20, ⟨[], 0⟩)
      (by simp)).2 10 hl

/-! ## Claim C5 -/

/-- Claim C5: when both flags are set in the same iteration, exactly one
action survives conflict resolution: the inclusion survives iff its AIC
drop (relative to the current best AIC) is at least the removal's, the
removal survives iff its drop is strictly larger, and an exact tie keeps
the inclusion and cancels the removal. -/
theorem stepwise_conflict (ba aInc aRem : ℚ) :
    ((resolveFlags ba aInc aRem true true).1 = true ↔ ba - aInc ≥ ba - aRem) ∧
    ((resolveFlags ba aInc aRem true true).2 = true ↔ ba - aRem > ba - aInc) ∧
    ¬((resolveFlags ba aInc aRem true true).1 = true ∧
      (resolveFlags ba aInc aRem true true).2 = true) ∧
    ((resolveFlags ba aInc aRem true true).1 = true ∨
      (resolveFlags ba aInc aRem true true).2 = true) ∧
    (ba - aInc = ba - aRem → resolveFlags ba aInc aRem true true = (true, false)) := by
  by_cases hc : ba - aRem > ba - aInc
  · have hng : ¬ (ba - aInc ≥ ba - aRem) := not_le.mpr hc
    refine ⟨?_, ?_, ?_, ?_, ?_⟩
    · simp [resolveFlags, hc, hng]
    · simp [resolveFlags, hc]
    · simp [resolveFlags, hc]
    · simp [resolveFlags, hc]
    · intro heq
      rw [heq] at hng
      exact absurd le_rfl hng
  · have hge : ba - aInc ≥ ba - aRem := not_lt.mp hc
    refine ⟨?_, ?_, ?_, ?_, ?_⟩
    · simp [resolveFlags, hc, hge]
    · simp [resolveFlags, hc]
    · simp [resolveFlags, hc]
    · simp [resolveFlags, hc]
    · intro heq
      simp [resolveFlags, hc]

/-- Witness for C5: a strict case (inclusion drop 3 beats removal drop 2)
and an exact tie (both drops 3), which keeps the inclusion. -/
theorem stepwise_conflict_witness :
    ((resolveFlags 10 7 8 true true).1 = true ↔ (10 - 7 : ℚ) ≥ 10 - 8) ∧
    resolveFlags 10 7 7 true true = (true, false) :=
  ⟨(stepwise_conflict 10 7 8).1, (stepwise_conflict 10 7 7).2.2.2.2 rfl⟩

/-! ## Claim C9: termination of the stepwise loop -/

theorem subperm_mem_permsSublists {l m : List String} (h : l <+~ m) :
    l ∈ permsSublists m := by
  rw [List.subperm_iff] at h
  obtain ⟨p, hp, hs⟩ := h
  simp only [permsSublists, List.mem_flatten, List.mem_map]
  exact ⟨p.sublists, ⟨p, List.mem_permutations.mpr hp, rfl⟩, List.mem_sublists.mpr hs⟩

theorem aic_mem_aicsOf {O : OLS} {df : DataFrame} {f : String} {mdl : FittedModel}
    {d1 : DataFrame} {fs : List String} (hf : f ∈ fs)
    (hfit : O.fit f df = .ok (mdl, d1)) : mdl.aic ∈ aicsOf O df fs := by
  simp only [aicsOf, List.mem_filterMap]
  refine ⟨f, hf, ?_⟩
  rw [hfit]

theorem aicMeasure_lt {O : OLS} {df : DataFrame} {resp : String} {base : List String}
    {a ba : ℚ} (hmem : a ∈ aicsOf O df (formulaUniverse resp base)) (hlt : a < ba) :
    aicMeasure O df resp base a < aicMeasure O df resp base ba := by
  have hsub : (aicsOf O df (formulaUniverse resp base)).toFinset.filter (fun x => x < a) ⊆
      (aicsOf O df (formulaUniverse resp base)).toFinset.filter (fun x => x < ba) := by
    intro x hx
    obtain ⟨hx1, hx2⟩ := Finset.mem_filter.mp hx
    exact Finset.mem_filter.mpr ⟨hx1, lt_trans hx2 hlt⟩
  exact Finset.card_lt_card ((Finset.ssubset_iff_of_subset hsub).mpr
    ⟨a, Finset.mem_filter.mpr ⟨List.mem_toFinset.mpr hmem, hlt⟩,
      fun hc => absurd (Finset.mem_filter.mp hc).2 (lt_irrefl a)⟩)

theorem aicMeasure_le {O : OLS} {df : DataFrame} {resp : String} {base : List String}
    {ba : ℚ} (hmem : ba ∈ aicsOf O df (formulaUniverse resp base)) :
    aicMeasure O df resp base ba ≤ (permsSublists base).length := by
  have h1 : (aicsOf O df (formulaUniverse resp base)).toFinset.filter (fun x => x < ba) ⊆
      (aicsOf O df (formulaUniverse resp base)).toFinset.erase ba := by
    intro x hx
    obtain ⟨hx1, hx2⟩ := Finset.mem_filter.mp hx
    exact Finset.mem_erase.mpr ⟨ne_of_lt hx2, hx1⟩
  have h2 := Finset.card_le_card h1
  rw [Finset.card_erase_of_mem (List.mem_toFinset.mpr hmem)] at h2
  have h3 : (aicsOf O df (formulaUniverse resp base)).toFinset.card ≤
      (formulaUniverse resp base).length :=
    le_trans (List.toFinset_card_le _) (List.length_filterMap_le _ _)
  have h4 : (formulaUniverse resp base).length = (permsSublists base).length + 1 := by
    simp [formulaUniverse]
  unfold aicMeasure
  omega

theorem collectIncl_error_ne {O : OLS} {resp : String} {sel : List String} :
    ∀ {df : DataFrame} {l : List String} {e : Err} {df' : DataFrame},
      collectIncl O resp sel df l = (.error e, df') → e ≠ .fuelExhausted := by
  intro df l
  induction l generalizing df with
  | nil =>
    intro e df' h
    simp [collectIncl] at h
  | cons v vs ih =>
    intro e df' h
    simp only [collectIncl] at h
    split at h
    · simp only [Prod.mk.injEq, Except.error.injEq] at h
      rw [← h.1]
      intro hc
      cases hc
    · split at h
      · simp only [Prod.mk.injEq, Except.error.injEq] at h
        rw [← h.1]
        intro hc
        cases hc
      · split at h
        · next rest df2 heq2 =>
          simp only [Prod.mk.injEq, Except.error.injEq] at h
          rw [← h.1]
          exact ih heq2
        · simp at h

theorem collectRem_error_ne {O : OLS} {resp : String} {sel : List String} :
    ∀ {df : DataFrame} {l : List String} {e : Err} {df' : DataFrame},
      collectRem O resp sel df l = (.error e, df') → e ≠ .fuelExhausted := by
  intro df l
  induction l generalizing df with
  | nil =>
    intro e df' h
    simp [collectRem] at h
  | cons v vs ih =>
    intro e df' h
    simp only [collectRem] at h
    split at h
    · simp only [Prod.mk.injEq, Except.error.injEq] at h
      rw [← h.1]
      intro hc
      cases hc
    · split at h
      · next rest df2 heq2 =>
        simp only [Prod.mk.injEq, Except.error.injEq] at h
        rw [← h.1]
        exact ih heq2
      · simp at h

theorem swStepRun_fail_ne {O : OLS} {resp : String} {tin tout : ℚ} {df : DataFrame}
    {sel rem : List String} {bm : FittedModel} {ba : ℚ} {e : Err} {df1 : DataFrame}
    (h : swStepRun O resp tin tout df sel rem bm ba = (.fail e, df1)) :
    e ≠ .fuelExhausted := by
  simp only [swStepRun] at h
  split at h
  · next e' dfA heq =>
    simp only [Prod.mk.injEq, SwStep.fail.injEq] at h
    rw [← h.1]
    exact collectIncl_error_ne heq
  · next inclCands dfA heq =>
    split at h
    · next e' dfB heq2 =>
      simp only [Prod.mk.injEq, SwStep.fail.injEq] at h
      rw [← h.1]
      by_cases hse : sel.isEmpty
      · rw [if_pos hse] at heq2
        simp at heq2
      · rw [if_neg hse] at heq2
        exact collectRem_error_ne heq2
    · next remCands dfB heq2 =>
      split at h
      · split at h
        · simp at h
        · simp only [Prod.mk.injEq, SwStep.fail.injEq] at h
          rw [← h.1]
          intro hc
          cases hc
      · split at h
        · split at h
          · simp at h
          · simp only [Prod.mk.injEq, SwStep.fail.injEq] at h
            rw [← h.1]
            intro hc
            cases hc
        · simp at h

theorem swStepRun_move_fit {O : OLS} {resp : String} {tin tout : ℚ} {df : DataFrame}
    {sel rem : List String} {bm : FittedModel} {ba : ℚ}
    {sel1 rem1 : List String} {bm1 : FittedModel} {ba1 : ℚ} {ev : SwEvent} {df1 : DataFrame}
    (hO : SideEffectFree O)
    (h : swStepRun O resp tin tout df sel rem bm ba = (.move sel1 rem1 bm1 ba1 ev, df1)) :
    ba1 = bm1.aic ∧
    ∃ f, (f = interceptFormula resp ∨ ∃ l, l <+~ sel ++ rem ∧ f = mkFormula resp l) ∧
      O.fit f df = .ok (bm1, df) := by
  simp only [swStepRun] at h
  split at h
  · simp at h
  · next inclCands dfA heq =>
    split at h
    · simp at h
    · next remCands dfB heq2 =>
      split at h
      · split at h
        · next v a p m heqBi =>
          simp only [Prod.mk.injEq, SwStep.move.injEq] at h
          obtain ⟨⟨hsel, hrem, hbm, hba, hev⟩, hdf⟩ := h
          have hc : (v, a, p, m) ∈ inclCands := sortByKey_head_mem heqBi
          have haic := (collectIncl_ok_fst heq).2 _ hc
          have hfit := collectIncl_ok_fits hO heq _ hc
          have hv : v ∈ rem := by
            have := List.mem_map_of_mem (fun c => c.1) hc
            rwa [(collectIncl_ok_fst heq).1] at this
          refine ⟨by rw [← hba, ← hbm]; exact haic,
            mkFormula resp (sel ++ [v]), ?_, ?_⟩
          · exact Or.inr ⟨sel ++ [v],
              (List.subperm_append_left sel).mpr
                ((List.singleton_sublist.mpr hv).subperm), rfl⟩
          · rw [← hbm]
            exact hfit
        · simp at h
      · split at h
        · split at h
          · next v a m heqBr =>
            simp only [Prod.mk.injEq, SwStep.move.injEq] at h
            obtain ⟨⟨hsel, hrem, hbm, hba, hev⟩, hdf⟩ := h
            by_cases hse : sel.isEmpty
            · rw [if_pos hse] at heq2
              simp only [Prod.mk.injEq, Except.ok.injEq] at heq2
              rw [← heq2.1] at heqBr
              simp [bestRemCand, sortByKey] at heqBr
            · rw [if_neg hse] at heq2
              have hdfA : dfA = df := by
                have hh := collectIncl_df O resp sel hO df rem
                rw [heq] at hh
                exact hh
              rw [hdfA] at heq2
              have hc : (v, a, m) ∈ remCands := sortByKey_head_mem heqBr
              have haic := (collectRem_ok_fst heq2).2 _ hc
              have hfit := collectRem_ok_fits hO heq2 _ hc
              refine ⟨by rw [← hba, ← hbm]; exact haic,
                swRemovalFormula resp sel v, ?_, ?_⟩
              · by_cases hve : (swRemovalVars sel v).isEmpty
                · rw [swRemovalFormula, if_pos hve]
                  exact Or.inl rfl
                · rw [swRemovalFormula, if_neg hve]
                  exact Or.inr ⟨swRemovalVars sel v,
                    ((List.filter_sublist sel).trans
                      (List.sublist_append_left sel rem)).subperm, rfl⟩
              · rw [← hbm]
                exact hfit
          · simp at h
        · simp at h

theorem swLoop_no_fuelExhausted {O : OLS} {resp : String} {tin tout : ℚ}
    (hO : SideEffectFree O) (df : DataFrame) (base : List String) :
    ∀ (fuel : Nat) (sel rem : List String) (bm : FittedModel) (ba : ℚ),
      (sel ++ rem) ~ base →
      aicMeasure O df resp base ba + 2 ≤ fuel →
      (swLoop O resp tin tout fuel df sel rem bm ba).1 ≠ .error .fuelExhausted := by
  intro fuel
  induction fuel with
  | zero =>
    intro sel rem bm ba hperm hfuel
    omega
  | succ n ih =>
    intro sel rem bm ba hperm hfuel
    simp only [swLoop]
    split
    · next e df1 heq =>
      intro hc
      simp only [Except.error.injEq] at hc
      exact swStepRun_fail_ne heq hc
    · simp
    · next sel1 rem1 bm1 ba1 ev df1 heq =>
      have hdf1 : df1 = df := by
        have hh := swStepRun_df O resp tin tout hO df sel rem bm ba
        rw [heq] at hh
        exact hh
      rw [hdf1]
      obtain ⟨hlt, hshape⟩ := swStepRun_move heq
      obtain ⟨hba1, f, hform, hfit⟩ := swStepRun_move_fit hO heq
      have hfmem : f ∈ formulaUniverse resp base := by
        rcases hform with rfl | ⟨l, hsub, rfl⟩
        · exact List.mem_cons_self _ _
        · refine List.mem_cons_of_mem _ (List.mem_map_of_mem _ ?_)
          exact subperm_mem_permsSublists (hsub.trans hperm.subperm)
      have hamem : ba1 ∈ aicsOf O df (formulaUniverse resp base) := by
        rw [hba1]
        exact aic_mem_aicsOf hfmem hfit
      have hperm1 : (sel1 ++ rem1) ~ base := by
        rcases hshape with ⟨v, p, hv, hsel1, hrem1, -⟩ | ⟨v, hv, hsel1, hrem1, -⟩
        · subst hsel1; subst hrem1
          refine List.Perm.trans ?_ hperm
          rw [List.append_assoc]
          exact List.Perm.append_left sel (List.perm_cons_erase hv).symm
        · subst hsel1; subst hrem1
          refine List.Perm.trans ?_ hperm
          calc sel.erase v ++ (rem ++ [v])
              = (sel.erase v ++ rem) ++ [v] := by rw [List.append_assoc]
            _ ~ v :: (sel.erase v ++ rem) := List.perm_append_singleton _ _
            _ = (v :: sel.erase v) ++ rem := rfl
            _ ~ sel ++ rem := List.Perm.append_right rem
                (List.perm_cons_erase hv).symm
      have hmeas : aicMeasure O df resp base ba1 < aicMeasure O df resp base ba :=
        aicMeasure_lt hamem hlt
      have hrec := ih sel1 rem1 bm1 ba1 hperm1 (by omega)
      split
      · next e df2 heq2 =>
        intro hc
        simp only [Except.error.injEq] at hc
        rw [heq2] at hrec
        exact hrec (by rw [hc])
      · simp

/-- Claim C9: `stepwise_selection_both` terminates whenever the fitting
capability is side-effect-free.  The loop can only stop, fail, or commit a
move that strictly decreases the best AIC; the best AIC ranges over the
finitely many AIC values of formulas over sublists of permutations of the
variable pool, so the chosen fuel is provably never exhausted.  The
claim's statement — termination on every input for which all fits
succeed — follows a fortiori: the result is never the fuel-exhaustion
marker, whatever the individual fits return. -/
theorem stepwise_selection_terminates (O : OLS) (df : DataFrame) (resp : String)
    (initial : Option (List String)) (tin tout : ℚ) (hO : SideEffectFree O) :
    (stepwise_selection_both O df resp initial tin tout).1 ≠ .error .fuelExhausted := by
  simp only [stepwise_selection_both]
  split
  · intro hc
    simp only [Except.error.injEq] at hc
    cases hc
  · next bm df1 heq =>
    have hdf1 : df1 = df := hO _ _ _ _ heq
    rw [hdf1]
    set sel0 := (match initial with | none => [] | some l => l) with hsel0
    set rem0 := (dedupFirst df.columns).filter
        (fun x => decide (x ∉ sel0) && decide (x ≠ resp)) with hrem0
    have hfmem : (if sel0.isEmpty then interceptFormula resp else mkFormula resp sel0) ∈
        formulaUniverse resp (sel0 ++ rem0) := by
      by_cases hse : sel0.isEmpty
      · rw [if_pos hse]
        exact List.mem_cons_self _ _
      · rw [if_neg hse]
        refine List.mem_cons_of_mem _ (List.mem_map_of_mem _ ?_)
        exact subperm_mem_permsSublists (List.sublist_append_left sel0 rem0).subperm
    have hamem : bm.aic ∈ aicsOf O df (formulaUniverse resp (sel0 ++ rem0)) :=
      aic_mem_aicsOf hfmem heq
    refine swLoop_no_fuelExhausted hO df (sel0 ++ rem0) _ sel0 rem0 bm bm.aic
      (List.Perm.refl _) ?_
    have hb := aicMeasure_le hamem
    simp only [swFuel]
    omega

/-- Witness for C9: the termination theorem at the fixture oracle (which
is side-effect-free) and table. -/
theorem stepwise_selection_terminates_witness :
    (stepwise_selection_both olsW dfW "y" none 5 5).1 ≠ .error .fuelExhausted :=
  stepwise_selection_terminates olsW dfW "y" none 5 5 (tableOLS_sef _)

/-- Witness for C8: the subset/no-duplicate theorem applied to concrete
forward and stepwise runs on the fixture table. -/
theorem selected_vars_subset_nodup_witness :
    ((["x2"] : List String).Nodup ∧
      ∀ v ∈ (["x2"] : List String), v ∈ dfW.columns ∧ v ≠ "y") ∧
    ((["x1", "x2"] : List String).Nodup ∧
      ∀ v ∈ (["x1", "x2"] : List String), v ∈ dfW.columns ∧ v ≠ "y") := by
  have h := selected_vars_subset_nodup olsW dfW "y" (by decide) (by decide)
  constructor
  · exact h.1 5 ⟨[("Intercept", 50), ("x2", 2)], 10⟩ ["x2"] [("x2", 2)] dfW (by decide)
  · exact h.2.2.2 none 5 5 ⟨[("Intercept", 50), ("x1", 10), ("x2", 2)], 8⟩ ["x1", "x2"]
      [.add "x1" 3 9, .add "x2" 2 8] dfW (Or.inl rfl) (by decide)
